import Mathlib

/-!
Verification development for the layered configuration resolver in
`config/loader.go` (package `config` of creastat/infra).

The Go code is shallowly embedded:

* the process environment is a total map `Env : String → String`
  (Go's `os.Getenv` returns `""` for unset variables, so unset and
  empty are indistinguishable, exactly as in the source);
* a configuration value (the reflective `reflect.Value` tree walked by
  the loader) is the inductive `Val`; struct fields carry the data the
  loader reads via reflection: field name, `env` tag, and settability
  (exportedness);
* the external YAML/JSON decoders (`gopkg.in/yaml.v3`,
  `encoding/json`) are not repository code; a file on disk is modelled
  by the outcome of reading it (`ReadResult`) together with abstract
  decode functions, which is all `loadFromFile` observes about them;
* Go's `strconv` parsers are embedded over `Nat`/`Int` with explicit
  64-bit range checks; `float64` values are represented exactly by
  their decimal reading (sign, mantissa digits, base-10 exponent)
  instead of an IEEE-rounded double — hex-float syntax, digit-separator
  underscores and the overflow-to-infinity range error of
  `strconv.ParseFloat` are not modelled, and no claim below depends on
  them;
* `strings.ToUpper`/`ToLower` are modelled on ASCII (the loader only
  ever applies them to Go identifiers and file extensions);
* reflection addressability is modelled by two flags threaded through
  the interpolation walk: `addr` (the value is addressable) and `ro`
  (the value was reached through an unexported field, reflect's
  read-only flag); `CanSet` is `addr && !ro`.  The panic of
  `reflect.Value.SetMapIndex` on read-only maps is outside the error
  model and is treated as leaving the entry unchanged; no claim
  exercises it.
-/

namespace Cfg

/-- Process environment: `os.Getenv`. Unset variables read as `""`. -/
def Env : Type := String → String

/-- Error kinds of Go's `strconv` (`ErrSyntax` / `ErrRange`). -/
inductive ParseErr : Type where
  | errSyntax
  | errRange
deriving DecidableEq, Repr

/-- Exact decimal reading of a Go `float64` environment value.
IEEE rounding is deliberately not modelled; see the module header. -/
inductive GoFloat : Type where
  | finite (neg : Bool) (mant : Nat) (exp10 : Int)
  | inf (neg : Bool)
  | nan
deriving DecidableEq, Repr

/-- Numeric value of a run of ASCII digits, most significant first. -/
def digitsNat : List Char → Nat :=
  List.foldl (fun a c => a * 10 + (c.toNat - 48)) 0

/-- Digit scan used by the integer parsers: `none` as soon as a
non-digit is hit, otherwise the accumulated value. -/
def digitsValAux : Nat → List Char → Option Nat
  | acc, [] => some acc
  | acc, c :: cs => if c.isDigit then digitsValAux (acc * 10 + c.toNat - 48) cs else none

/-- Go `strconv.ParseUint(s, 10, 64)`: no sign, base-10 digits only,
value below `2^64`. -/
def parseUintGo (s : String) : Except ParseErr Nat :=
  match s.data with
  | [] => .error .errSyntax
  | c :: cs =>
    match digitsValAux 0 (c :: cs) with
    | none => .error .errSyntax
    | some v => if v < 2 ^ 64 then .ok v else .error .errRange

/-- Go `strconv.ParseInt(s, 10, 64)`: optional sign, base-10 digits,
result within `[-2^63, 2^63 - 1]`. -/
def parseIntGo (s : String) : Except ParseErr Int :=
  match s.data with
  | [] => .error .errSyntax
  | c :: cs =>
    let neg := c = '-'
    let ds := if c = '+' ∨ c = '-' then cs else c :: cs
    match ds, digitsValAux 0 ds with
    | [], _ => .error .errSyntax
    | _ :: _, none => .error .errSyntax
    | _ :: _, some v =>
      if neg then
        if v ≤ 2 ^ 63 then .ok (-(v : Int)) else .error .errRange
      else
        if v ≤ 2 ^ 63 - 1 then .ok (v : Int) else .error .errRange

/-- Go `strconv.ParseBool`: the twelve canonical spellings. -/
def parseBoolGo (s : String) : Except ParseErr Bool :=
  if s = "1" ∨ s = "t" ∨ s = "T" ∨ s = "TRUE" ∨ s = "true" ∨ s = "True" then .ok true
  else if s = "0" ∨ s = "f" ∨ s = "F" ∨ s = "FALSE" ∨ s = "false" ∨ s = "False" then .ok false
  else .error .errSyntax

/-- Longest prefix of a list satisfying `p`, together with the rest.
Mirrors the greedy character classes of the loader's regular
expression and the digit runs of `strconv`. -/
def spanP (p : Char → Bool) : List Char → List Char × List Char
  | [] => ([], [])
  | c :: cs => if p c then ((spanP p cs).1.cons c, (spanP p cs).2) else ([], c :: cs)

/-- Decimal part of `strconv.ParseFloat`: `digits [. digits] [eE [sign]
digits]` with at least one mantissa digit and full consumption. -/
def parseDecimal (cs : List Char) : Option (Nat × Int) :=
  let ip := (spanP Char.isDigit cs).1
  let r1 := (spanP Char.isDigit cs).2
  let fr : List Char × List Char :=
    match r1 with
    | c :: r => if c = '.' then spanP Char.isDigit r else ([], c :: r)
    | [] => ([], [])
  let fp := fr.1
  let r2 := fr.2
  if ip.isEmpty && fp.isEmpty then none
  else
    match r2 with
    | [] => some (digitsNat (ip ++ fp), -(fp.length : Int))
    | e :: r3 =>
      if e = 'e' ∨ e = 'E' then
        let sr : Bool × List Char :=
          match r3 with
          | '+' :: r => (false, r)
          | '-' :: r => (true, r)
          | r => (false, r)
        let ed := (spanP Char.isDigit sr.2).1
        let r5 := (spanP Char.isDigit sr.2).2
        if ed.isEmpty ∨ !r5.isEmpty then none
        else
          some (digitsNat (ip ++ fp),
            (if sr.1 then -(digitsNat ed : Int) else (digitsNat ed : Int)) - (fp.length : Int))
      else none

/-- Go `strconv.ParseFloat(s, 64)` on the modelled grammar: optional
sign, `inf`/`infinity` (signed) and `nan` (unsigned) case-insensitive,
otherwise the decimal grammar of `parseDecimal`. -/
def parseFloatGo (s : String) : Except ParseErr GoFloat :=
  match s.data with
  | [] => .error .errSyntax
  | c :: cs =>
    let lcs := (c :: cs).map Char.toLower
    if lcs = ['n', 'a', 'n'] then .ok .nan
    else
      let sr : Bool × List Char :=
        if c = '+' then (false, cs)
        else if c = '-' then (true, cs)
        else (false, c :: cs)
      let lrest := sr.2.map Char.toLower
      if lrest = ['i', 'n', 'f'] ∨ lrest = ['i', 'n', 'f', 'i', 'n', 'i', 't', 'y'] then
        .ok (.inf sr.1)
      else
        match parseDecimal sr.2 with
        | some me => .ok (.finite sr.1 me.1 me.2)
        | none => .error .errSyntax

/-! The interpolation engine: `expandEnvVar` (loader.go lines 241-276).
The compiled pattern is an alternation; the two alternatives are
disjoint on the character following `$` (`{` versus `[A-Z_]`), so
left-to-right scanning with greedy runs reproduces the regexp engine's
leftmost, non-overlapping matching exactly. -/

/-- Opening brace character (written by code point to keep brace
characters out of the source text). -/
def brO : Char := Char.ofNat 123

/-- Closing brace character. -/
def brC : Char := Char.ofNat 125

/-- Character class `[A-Z_]`, the first character of a bare `$NAME`. -/
def nameStartChar (c : Char) : Bool := (65 ≤ c.toNat && c.toNat ≤ 90) || c = '_'

/-- Character class `[A-Z0-9_]`, subsequent characters of `$NAME`. -/
def nameChar (c : Char) : Bool := nameStartChar c || c.isDigit

/-- Attempted match of `{[^}]+}` after a `$` has been consumed: the
(non-empty) run of non-brace characters and the text after the closing
brace, or `none` when the alternative cannot match here. -/
def takeBraced (cs : List Char) : Option (List Char × List Char) :=
  match (spanP (fun c => !(c = brC)) cs).2 with
  | [] => none
  | _ :: rem =>
    if (spanP (fun c => !(c = brC)) cs).1.isEmpty then none
    else some ((spanP (fun c => !(c = brC)) cs).1, rem)

/-- Content split of a braced reference at the first `:-`, as done by
`strings.Contains` / `strings.SplitN(content, ":-", 2)`.  When no
separator occurs the default comes back empty, which the source cannot
distinguish from an explicitly empty default. -/
def splitDefault : List Char → List Char × List Char
  | [] => ([], [])
  | c :: cs =>
    if c = ':' ∧ cs.head? = some '-' then ([], cs.tail)
    else ((splitDefault cs).1.cons c, (splitDefault cs).2)

/-- Replacement chosen for a braced match `${content}` (loader.go
lines 248-274): environment value if non-empty, else the default if
non-empty, else the original matched text. -/
def resolveBraced (env : Env) (content : List Char) : List Char :=
  let nm := (splitDefault content).1
  let dflt := (splitDefault content).2
  let value := env (String.mk nm)
  if value ≠ "" then value.data
  else if dflt ≠ [] then dflt
  else '$' :: brO :: (content ++ [brC])

/-- Replacement chosen for a bare match `$NAME`: environment value if
non-empty, else the original matched text (a bare match never has a
default). -/
def resolveBare (env : Env) (nm : List Char) : List Char :=
  let value := env (String.mk nm)
  if value ≠ "" then value.data else '$' :: nm

theorem spanP_append (p : Char → Bool) (l : List Char) :
    (spanP p l).1 ++ (spanP p l).2 = l := by
  induction l with
  | nil => simp [spanP]
  | cons c cs ih =>
    by_cases h : p c <;> simp [spanP, h, ih]

theorem takeBraced_length {cs : List Char} {cr : List Char × List Char}
    (h : takeBraced cs = some cr) :
    cr.1.length + cr.2.length + 1 = cs.length := by
  unfold takeBraced at h
  rcases hs : (spanP (fun c => !(c = brC)) cs).2 with _ | ⟨d, rest⟩
  · rw [hs] at h; exact absurd h (by simp)
  · rw [hs] at h
    by_cases he : (spanP (fun c => !(c = brC)) cs).1.isEmpty
    · simp [he] at h
    · simp [he] at h
      have hlen := congrArg List.length (spanP_append (fun c => !(c = brC)) cs)
      rw [hs] at hlen
      simp at hlen
      rw [← h]
      simp
      omega

theorem spanP_snd_length (p : Char → Bool) (l : List Char) :
    (spanP p l).2.length ≤ l.length := by
  have := congrArg List.length (spanP_append p l)
  simp at this
  omega

/-- Scanner core of `expandEnvVar`: walks the input left to right,
replacing each leftmost match of the compiled pattern and continuing
after it, like `Regexp.ReplaceAllStringFunc`. -/
def scanAux (env : Env) : List Char → List Char
  | [] => []
  | c :: cs =>
    if c = '$' then
      match cs with
      | [] => ['$']
      | d :: ds =>
        if d = brO then
          match h : takeBraced ds with
          | some cr => resolveBraced env cr.1 ++ scanAux env cr.2
          | none => c :: scanAux env (d :: ds)
        else if nameStartChar d then
          resolveBare env (spanP nameChar (d :: ds)).1 ++ scanAux env (spanP nameChar (d :: ds)).2
        else c :: scanAux env (d :: ds)
    else c :: scanAux env cs
termination_by l => l.length
decreasing_by
  all_goals simp only [List.length_cons]
  all_goals first
    | omega
    | (have h2 := takeBraced_length h; omega)
    | (exact Nat.lt_of_le_of_lt (spanP_snd_length _ _)
        (by simp only [List.length_cons]; omega))

/-- Go `expandEnvVar` (loader.go lines 241-276). -/
def expandEnvVar (env : Env) (s : String) : String :=
  String.mk (scanAux env s.data)

/-! The reflective value model.  `Val` is the shape of data reachable
from the target object through `reflect`; `Field` is one struct field
as the loader sees it: identifier, `env` tag (`""` when absent) and
whether `CanSet` holds for it under an addressable parent (i.e. the
field is exported). -/

mutual
inductive Val : Type where
  | str (s : String)
  | intV (n : Int)
  | uintV (n : Nat)
  | boolV (b : Bool)
  | floatV (f : GoFloat)
  | structV (fields : List Field)
  | sliceV (elems : List Val)
  | mapV (entries : List (String × Val))
  | ptrV (pointee : Option Val)
  | ifaceV (boxed : Option Val)
inductive Field : Type where
  | mk (fname ftag : String) (settable : Bool) (fval : Val)
end

/-- Field identifier (`reflect.StructField.Name`). -/
def Field.fname : Field → String
  | .mk n _ _ _ => n

/-- Value of the `env` struct tag, `""` when the tag is absent. -/
def Field.ftag : Field → String
  | .mk _ t _ _ => t

/-- Whether `reflect.Value.CanSet` holds for this field of an
addressable struct, i.e. the field is exported. -/
def Field.settable : Field → Bool
  | .mk _ _ cs _ => cs

/-- Current value of the field. -/
def Field.fval : Field → Val
  | .mk _ _ _ v => v

/-- Name `reflect.Kind` prints for a value, as used in the
"unsupported field type" error.  The model collapses the signed
integer kinds (including `time.Duration`) into one and likewise the
unsigned ones, as `setFieldValue` treats them identically. -/
def kindName : Val → String
  | .str _ => "string"
  | .intV _ => "int64"
  | .uintV _ => "uint64"
  | .boolV _ => "bool"
  | .floatV _ => "float64"
  | .structV _ => "struct"
  | .sliceV _ => "slice"
  | .mapV _ => "map"
  | .ptrV _ => "ptr"
  | .ifaceV _ => "interface"

/-- Coercion failure of one field, as wrapped into the load error:
either a `strconv` `*NumError` (carrying the parse function, the raw
input and the syntax/range kind) or the "unsupported field type"
error for non-scalar kinds. -/
inductive SetErr : Type where
  | numError (fn : String) (num : String) (kind : ParseErr)
  | unsupportedType (kind : String)
deriving DecidableEq, Repr

/-- Go `setFieldValue` (loader.go lines 144-188): coerce a raw
environment string into the field's scalar kind.  `time.Duration`
fields take the same `ParseInt` path as plain integers (the source's
comment about duration strings notwithstanding). -/
def setFieldValue : Val → String → Except SetErr Val
  | .str _, value => .ok (.str value)
  | .intV _, value =>
    match parseIntGo value with
    | .ok n => .ok (.intV n)
    | .error k => .error (.numError "ParseInt" value k)
  | .uintV _, value =>
    match parseUintGo value with
    | .ok n => .ok (.uintV n)
    | .error k => .error (.numError "ParseUint" value k)
  | .boolV _, value =>
    match parseBoolGo value with
    | .ok b => .ok (.boolV b)
    | .error k => .error (.numError "ParseBool" value k)
  | .floatV _, value =>
    match parseFloatGo value with
    | .ok f => .ok (.floatV f)
    | .error k => .error (.numError "ParseFloat" value k)
  | v, _ => .error (.unsupportedType (kindName v))

/-- Errors a load can fail with.  Go wraps each in a message string
(`fmt.Errorf(..., %w)`); the model keeps the structured cause. -/
inductive LoadError : Type where
  | readError
  | parseError (format : String)
  | unsupportedFormat (ext : String)
  | fieldBind (fieldName fullKey : String) (cause : SetErr)
  | invalidTarget
deriving DecidableEq, Repr

/-- Go `strings.ToUpper` on the ASCII fragment (field identifiers). -/
def asciiUpper (s : String) : String := String.mk (s.data.map Char.toUpper)

/-- Go `strings.ToLower` on the ASCII fragment (file extensions). -/
def asciiLower (s : String) : String := String.mk (s.data.map Char.toLower)

/-- Override key of a field: the `env` tag, or the upper-cased field
name when the tag is absent (loader.go lines 110-113). -/
def envKeyOf (f : Field) : String :=
  if f.ftag = "" then asciiUpper f.fname else f.ftag

/-- Go `loadStructFromEnv` (loader.go lines 97-141), written on the
field list of a struct: walks fields in order, skipping non-settable
fields and the `-` sentinel, recursing into nested structs with the
extended prefix, and otherwise overwriting from the environment when
the derived key has a non-empty value. -/
def loadFields (env : Env) : String → List Field → Except LoadError (List Field)
  | _, [] => .ok []
  | pfx, .mk n t cs v :: rest =>
    if cs then
      let envKey := if t = "" then asciiUpper n else t
      if envKey = "-" then
        match loadFields env pfx rest with
        | .error e => .error e
        | .ok rest2 => .ok (.mk n t cs v :: rest2)
      else
        let fullKey := pfx ++ envKey
        match v with
        | .structV inner =>
          match loadFields env (fullKey ++ "_") inner with
          | .error e => .error e
          | .ok inner2 =>
            match loadFields env pfx rest with
            | .error e => .error e
            | .ok rest2 => .ok (.mk n t cs (.structV inner2) :: rest2)
        | _ =>
          if env fullKey = "" then
            match loadFields env pfx rest with
            | .error e => .error e
            | .ok rest2 => .ok (.mk n t cs v :: rest2)
          else
            match setFieldValue v (env fullKey) with
            | .error e => .error (.fieldBind n fullKey e)
            | .ok v2 =>
              match loadFields env pfx rest with
              | .error e => .error e
              | .ok rest2 => .ok (.mk n t cs v2 :: rest2)
    else
      match loadFields env pfx rest with
      | .error e => .error e
      | .ok rest2 => .ok (.mk n t cs v :: rest2)
termination_by _ fs => sizeOf fs
decreasing_by all_goals (simp <;> omega)

/-- Go `loadFromEnv` (loader.go lines 87-94): the target must be a
(pointer to a) struct, then the field walk starts with the loader's
prefix. -/
def loadFromEnv (env : Env) (pfx : String) (c : Val) : Except LoadError Val :=
  match c with
  | .structV fs =>
    match loadFields env pfx fs with
    | .ok fs2 => .ok (.structV fs2)
    | .error e => .error e
  | _ => .error .invalidTarget

/-! The interpolation walk, `substituteValue` (loader.go lines
202-237).  The `addr`/`ro` flags model reflect addressability and the
read-only flag; their propagation follows `reflect`:

* struct fields inherit `addr`, and gain `ro` when unexported;
* slice elements are always addressable, inheriting only `ro`;
* a pointer target is addressable, inheriting `ro`;
* the value unboxed from an interface is never addressable;
* map values are not addressable, but `SetMapIndex` rewrites
  string-typed (or interface-wrapped string) entries regardless of
  addressability — only a read-only map is left alone (the source
  would panic there, which the error model does not represent). -/

mutual
def substituteValue (env : Env) (addr ro : Bool) : Val → Val
  | .str s => if addr && !ro then .str (expandEnvVar env s) else .str s
  | .structV fs => .structV (substFields env addr ro fs)
  | .sliceV xs => .sliceV (substElems env ro xs)
  | .mapV es => .mapV (substEntries env ro es)
  | .ptrV (some v) => .ptrV (some (substituteValue env true ro v))
  | .ptrV none => .ptrV none
  | .ifaceV (some v) => .ifaceV (some (substituteValue env false ro v))
  | .ifaceV none => .ifaceV none
  | v => v
termination_by v => sizeOf v
decreasing_by all_goals (simp <;> omega)

def substFields (env : Env) (addr ro : Bool) : List Field → List Field
  | [] => []
  | .mk n t cs v :: rest =>
    .mk n t cs (substituteValue env addr (ro || !cs) v) :: substFields env addr ro rest
termination_by fs => sizeOf fs
decreasing_by all_goals (simp <;> omega)

def substElems (env : Env) (ro : Bool) : List Val → List Val
  | [] => []
  | v :: rest => substituteValue env true ro v :: substElems env ro rest
termination_by xs => sizeOf xs
decreasing_by all_goals (simp <;> omega)

def substEntries (env : Env) (ro : Bool) : List (String × Val) → List (String × Val)
  | [] => []
  | (k, v) :: rest => (k, substMapVal env ro v) :: substEntries env ro rest
termination_by es => sizeOf es
decreasing_by all_goals (simp <;> omega)

def substMapVal (env : Env) (ro : Bool) : Val → Val
  | .str s => if !ro then .str (expandEnvVar env s) else .str s
  | .ifaceV (some (.str s)) =>
    if !ro then .ifaceV (some (.str (expandEnvVar env s))) else .ifaceV (some (.str s))
  | .ifaceV (some w) => .ifaceV (some (substituteValue env false ro w))
  | .ifaceV none => .ifaceV none
  | v => substituteValue env false ro v
termination_by v => sizeOf v + 1
decreasing_by all_goals (simp <;> omega)
end

/-- Go `substituteEnvVars` (loader.go lines 191-199): the root value
sits behind the caller's pointer, so it is addressable and writable. -/
def substituteEnvVars (env : Env) (c : Val) : Val :=
  substituteValue env true false c

/-! The file phase.  Reading and decoding are external to the
repository; `loadFromFile` observes a path only through the outcome of
`os.ReadFile` and the two decoders, which the model supplies as data. -/

/-- Abstract content of an existing, readable file: what each decoder
would turn it into, given the current target (`none` = parse error). -/
structure FileData : Type where
  yamlDecode : Val → Option Val
  jsonDecode : Val → Option Val

/-- Outcome of `os.ReadFile` on a path. -/
inductive ReadResult : Type where
  | notExist
  | readIOErr
  | content (fd : FileData)

/-- File system: what reading each path yields. -/
def FSys : Type := String → ReadResult

/-- Go `filepath.Ext`: suffix of the last path element starting at its
final dot, `""` when there is none (Unix path separator). -/
def extAux : List Char → List Char → String
  | [], _ => ""
  | c :: cs, acc =>
    if c = '/' then ""
    else if c = '.' then String.mk ('.' :: acc)
    else extAux cs (c :: acc)

/-- Extension of a path, scanning its characters from the end. -/
def filepathExt (p : String) : String := extAux p.data.reverse []

/-- Go `loadFromFile` (loader.go lines 59-84): a missing file is a
successful no-op; a read failure is `ConfigReadError`; otherwise the
lower-cased extension selects the decoder, decode failure is
`ConfigParseError`, and an unknown extension is
`UnsupportedFormatError`.  The extension is only consulted after a
successful read. -/
def loadFromFile (fsys : FSys) (path : String) (c : Val) : Except LoadError Val :=
  match fsys path with
  | .notExist => .ok c
  | .readIOErr => .error .readError
  | .content fd =>
    let ext := asciiLower (filepathExt path)
    if ext = ".yaml" ∨ ext = ".yml" then
      match fd.yamlDecode c with
      | some c2 => .ok c2
      | none => .error (.parseError "YAML")
    else if ext = ".json" then
      match fd.jsonDecode c with
      | some c2 => .ok c2
      | none => .error (.parseError "JSON")
    else .error (.unsupportedFormat ext)

/-- Go `Loader.Load` (loader.go lines 32-56): file phase (skipped for
an empty path), then environment overlay, then interpolation, then the
optional `SetDefaults` hook.  `hasDefaults`/`setDefaults` model
whether the target's type implements the `SetDefaults()` capability
and what it does. -/
def Load (fsys : FSys) (env : Env) (path pfx : String) (c : Val)
    (hasDefaults : Bool) (setDefaults : Val → Val) : Except LoadError Val :=
  match (if path = "" then Except.ok c else loadFromFile fsys path c) with
  | .error e => .error e
  | .ok c1 =>
    match loadFromEnv env pfx c1 with
    | .error e => .error e
    | .ok c2 =>
      let c3 := substituteEnvVars env c2
      .ok (if hasDefaults then setDefaults c3 else c3)

end Cfg


namespace Cfg

/-! Observation functions.  These are not new behavior: they read off,
from the same data, the access paths and derived keys that
`loadStructFromEnv` itself traverses, so that per-field statements can
be made at arbitrary nesting depth.  A path is the list of field
indices from the root struct. -/

/-- Field reached by a structural index path, together with nothing
else: purely positional access through nested structs. -/
def fieldAt : List Field → List Nat → Option Field
  | _, [] => none
  | fs, i :: p =>
    match fs[i]? with
    | none => none
    | some f =>
      match p with
      | [] => some f
      | _ :: _ =>
        match f.fval with
        | .structV inner => fieldAt inner p
        | _ => none

/-- Field the overlay phase visits at an index path, with its derived
environment key: mirrors the loader's control flow, so skipped fields
(non-settable or `-`-tagged, anywhere along the path) yield `none`. -/
def visit : String → List Field → List Nat → Option (Field × String)
  | _, _, [] => none
  | pfx, fs, i :: p =>
    match fs[i]? with
    | none => none
    | some f =>
      if f.settable then
        if envKeyOf f = "-" then none
        else
          match p with
          | [] => some (f, pfx ++ envKeyOf f)
          | _ :: _ =>
            match f.fval with
            | .structV inner => visit (pfx ++ envKeyOf f ++ "_") inner p
            | _ => none
      else none

/-- Derived environment keys of all leaves the overlay phase would
consult, in traversal order. -/
def envKeys : String → List Field → List String
  | _, [] => []
  | pfx, .mk n t cs v :: rest =>
    if cs then
      if (if t = "" then asciiUpper n else t) = "-" then envKeys pfx rest
      else
        match v with
        | .structV inner =>
          envKeys (pfx ++ (if t = "" then asciiUpper n else t) ++ "_") inner ++ envKeys pfx rest
        | _ => (pfx ++ (if t = "" then asciiUpper n else t)) :: envKeys pfx rest
    else envKeys pfx rest
termination_by _ fs => sizeOf fs
decreasing_by all_goals (simp <;> omega)

/-- Leaf-kind test: kinds `setFieldValue` rejects as unsupported
(everything except the scalars; structs are recursed into instead). -/
def isUnsupportedKind : Val → Bool
  | .sliceV _ => true
  | .mapV _ => true
  | .ptrV _ => true
  | .ifaceV _ => true
  | _ => false

/-- Leaf test: anything except a nested struct. -/
def isLeafKind : Val → Bool
  | .structV _ => false
  | _ => true

/-- Relation between a field before and after a successful overlay
pass, exactly as `loadStructFromEnv` treats one field. -/
def overlayRel (env : Env) (pfx : String) (f f2 : Field) : Prop :=
  f2.fname = f.fname ∧ f2.ftag = f.ftag ∧ f2.settable = f.settable ∧
  (if f.settable then
    (if envKeyOf f = "-" then f2 = f
     else
       match f.fval with
       | .structV inner =>
         ∃ inner2, loadFields env (pfx ++ envKeyOf f ++ "_") inner = .ok inner2 ∧
           f2.fval = .structV inner2
       | v =>
         if env (pfx ++ envKeyOf f) = "" then f2.fval = v
         else setFieldValue v (env (pfx ++ envKeyOf f)) = .ok f2.fval)
   else f2 = f)

theorem loadFields_nil (env : Env) (pfx : String) :
    loadFields env pfx [] = .ok [] := by
  simp [loadFields]

theorem loadFields_skip {env : Env} {pfx n t : String} {cs : Bool} {v : Val}
    {rest : List Field} (hcs : cs = false) :
    loadFields env pfx (.mk n t cs v :: rest) =
      match loadFields env pfx rest with
      | .error e => .error e
      | .ok rest2 => .ok (.mk n t cs v :: rest2) := by
  subst hcs
  simp [loadFields]

theorem loadFields_dash {env : Env} {pfx n t : String} {cs : Bool} {v : Val}
    {rest : List Field} (hcs : cs = true)
    (hk : (if t = "" then asciiUpper n else t) = "-") :
    loadFields env pfx (.mk n t cs v :: rest) =
      match loadFields env pfx rest with
      | .error e => .error e
      | .ok rest2 => .ok (.mk n t cs v :: rest2) := by
  subst hcs
  simp [loadFields, hk]

theorem loadFields_struct {env : Env} {pfx n t : String} {cs : Bool}
    {inner rest : List Field} (hcs : cs = true)
    (hk : ¬(if t = "" then asciiUpper n else t) = "-") :
    loadFields env pfx (.mk n t cs (.structV inner) :: rest) =
      match loadFields env (pfx ++ (if t = "" then asciiUpper n else t) ++ "_") inner with
      | .error e => .error e
      | .ok inner2 =>
        match loadFields env pfx rest with
        | .error e => .error e
        | .ok rest2 => .ok (.mk n t cs (.structV inner2) :: rest2) := by
  subst hcs
  simp [loadFields, hk]

theorem loadFields_leaf_empty {env : Env} {pfx n t : String} {cs : Bool} {v : Val}
    {rest : List Field} (hcs : cs = true)
    (hk : ¬(if t = "" then asciiUpper n else t) = "-")
    (hleaf : isLeafKind v = true)
    (he : env (pfx ++ (if t = "" then asciiUpper n else t)) = "") :
    loadFields env pfx (.mk n t cs v :: rest) =
      match loadFields env pfx rest with
      | .error e => .error e
      | .ok rest2 => .ok (.mk n t cs v :: rest2) := by
  subst hcs
  cases v <;> first
    | (simp [loadFields, hk, he]; done)
    | exact absurd hleaf (by simp [isLeafKind])

theorem loadFields_leaf_set {env : Env} {pfx n t : String} {cs : Bool} {v : Val}
    {rest : List Field} (hcs : cs = true)
    (hk : ¬(if t = "" then asciiUpper n else t) = "-")
    (hleaf : isLeafKind v = true)
    (he : ¬env (pfx ++ (if t = "" then asciiUpper n else t)) = "") :
    loadFields env pfx (.mk n t cs v :: rest) =
      match setFieldValue v (env (pfx ++ (if t = "" then asciiUpper n else t))) with
      | .error e => .error (.fieldBind n (pfx ++ (if t = "" then asciiUpper n else t)) e)
      | .ok v2 =>
        match loadFields env pfx rest with
        | .error e => .error e
        | .ok rest2 => .ok (.mk n t cs v2 :: rest2) := by
  subst hcs
  cases v <;> first
    | (simp [loadFields, hk, he]; done)
    | exact absurd hleaf (by simp [isLeafKind])

theorem loadFields_cons_ok {env : Env} {pfx n t : String} {cs : Bool} {v : Val}
    {rest fs2 : List Field}
    (h : loadFields env pfx (.mk n t cs v :: rest) = .ok fs2) :
    ∃ f2 rest2, fs2 = f2 :: rest2 ∧ loadFields env pfx rest = .ok rest2 ∧
      overlayRel env pfx (.mk n t cs v) f2 := by
  by_cases hcs : cs = true
  · by_cases hk : (if t = "" then asciiUpper n else t) = "-"
    · rw [loadFields_dash hcs hk] at h
      cases hrest : loadFields env pfx rest with
      | error e => rw [hrest] at h; exact absurd h (by simp)
      | ok rest2 =>
        rw [hrest] at h
        simp at h
        subst hcs
        exact ⟨_, rest2, h.symm, rfl, by
          simp [overlayRel, Field.fname, Field.ftag, Field.settable, envKeyOf, hk]⟩
    · cases v with
      | structV inner =>
        rw [loadFields_struct hcs hk] at h
        cases hin : loadFields env (pfx ++ (if t = "" then asciiUpper n else t) ++ "_") inner with
        | error e => rw [hin] at h; exact absurd h (by simp)
        | ok inner2 =>
          rw [hin] at h
          cases hrest : loadFields env pfx rest with
          | error e => rw [hrest] at h; exact absurd h (by simp)
          | ok rest2 =>
            rw [hrest] at h
            simp at h
            subst hcs
            refine ⟨_, rest2, h.symm, rfl, ?_⟩
            simp [overlayRel, Field.fname, Field.ftag, Field.settable, Field.fval,
              envKeyOf, hk]
            exact hin
      | str sv =>
        by_cases he : env (pfx ++ (if t = "" then asciiUpper n else t)) = ""
        · rw [loadFields_leaf_empty hcs hk (by simp [isLeafKind]) he] at h
          cases hrest : loadFields env pfx rest with
          | error e => rw [hrest] at h; exact absurd h (by simp)
          | ok rest2 =>
            rw [hrest] at h
            simp at h
            subst hcs
            exact ⟨_, rest2, h.symm, rfl, by
              simp [overlayRel, Field.fname, Field.ftag, Field.settable, Field.fval,
                envKeyOf, hk, he]⟩
        · rw [loadFields_leaf_set hcs hk (by simp [isLeafKind]) he] at h
          cases hset : setFieldValue (.str sv) (env (pfx ++ (if t = "" then asciiUpper n else t))) with
          | error e => rw [hset] at h; exact absurd h (by simp)
          | ok v2 =>
            rw [hset] at h
            cases hrest : loadFields env pfx rest with
            | error e => rw [hrest] at h; exact absurd h (by simp)
            | ok rest2 =>
              rw [hrest] at h
              simp at h
              subst hcs
              exact ⟨_, rest2, h.symm, rfl, by
                simp [overlayRel, Field.fname, Field.ftag, Field.settable, Field.fval,
                  envKeyOf, hk, he, hset]⟩
      | intV nv =>
        by_cases he : env (pfx ++ (if t = "" then asciiUpper n else t)) = ""
        · rw [loadFields_leaf_empty hcs hk (by simp [isLeafKind]) he] at h
          cases hrest : loadFields env pfx rest with
          | error e => rw [hrest] at h; exact absurd h (by simp)
          | ok rest2 =>
            rw [hrest] at h
            simp at h
            subst hcs
            exact ⟨_, rest2, h.symm, rfl, by
              simp [overlayRel, Field.fname, Field.ftag, Field.settable, Field.fval,
                envKeyOf, hk, he]⟩
        · rw [loadFields_leaf_set hcs hk (by simp [isLeafKind]) he] at h
          cases hset : setFieldValue (.intV nv) (env (pfx ++ (if t = "" then asciiUpper n else t))) with
          | error e => rw [hset] at h; exact absurd h (by simp)
          | ok v2 =>
            rw [hset] at h
            cases hrest : loadFields env pfx rest with
            | error e => rw [hrest] at h; exact absurd h (by simp)
            | ok rest2 =>
              rw [hrest] at h
              simp at h
              subst hcs
              exact ⟨_, rest2, h.symm, rfl, by
                simp [overlayRel, Field.fname, Field.ftag, Field.settable, Field.fval,
                  envKeyOf, hk, he, hset]⟩
      | uintV nv =>
        by_cases he : env (pfx ++ (if t = "" then asciiUpper n else t)) = ""
        · rw [loadFields_leaf_empty hcs hk (by simp [isLeafKind]) he] at h
          cases hrest : loadFields env pfx rest with
          | error e => rw [hrest] at h; exact absurd h (by simp)
          | ok rest2 =>
            rw [hrest] at h
            simp at h
            subst hcs
            exact ⟨_, rest2, h.symm, rfl, by
              simp [overlayRel, Field.fname, Field.ftag, Field.settable, Field.fval,
                envKeyOf, hk, he]⟩
        · rw [loadFields_leaf_set hcs hk (by simp [isLeafKind]) he] at h
          cases hset : setFieldValue (.uintV nv) (env (pfx ++ (if t = "" then asciiUpper n else t))) with
          | error e => rw [hset] at h; exact absurd h (by simp)
          | ok v2 =>
            rw [hset] at h
            cases hrest : loadFields env pfx rest with
            | error e => rw [hrest] at h; exact absurd h (by simp)
            | ok rest2 =>
              rw [hrest] at h
              simp at h
              subst hcs
              exact ⟨_, rest2, h.symm, rfl, by
                simp [overlayRel, Field.fname, Field.ftag, Field.settable, Field.fval,
                  envKeyOf, hk, he, hset]⟩
      | boolV bv =>
        by_cases he : env (pfx ++ (if t = "" then asciiUpper n else t)) = ""
        · rw [loadFields_leaf_empty hcs hk (by simp [isLeafKind]) he] at h
          cases hrest : loadFields env pfx rest with
          | error e => rw [hrest] at h; exact absurd h (by simp)
          | ok rest2 =>
            rw [hrest] at h
            simp at h
            subst hcs
            exact ⟨_, rest2, h.symm, rfl, by
              simp [overlayRel, Field.fname, Field.ftag, Field.settable, Field.fval,
                envKeyOf, hk, he]⟩
        · rw [loadFields_leaf_set hcs hk (by simp [isLeafKind]) he] at h
          cases hset : setFieldValue (.boolV bv) (env (pfx ++ (if t = "" then asciiUpper n else t))) with
          | error e => rw [hset] at h; exact absurd h (by simp)
          | ok v2 =>
            rw [hset] at h
            cases hrest : loadFields env pfx rest with
            | error e => rw [hrest] at h; exact absurd h (by simp)
            | ok rest2 =>
              rw [hrest] at h
              simp at h
              subst hcs
              exact ⟨_, rest2, h.symm, rfl, by
                simp [overlayRel, Field.fname, Field.ftag, Field.settable, Field.fval,
                  envKeyOf, hk, he, hset]⟩
      | floatV fv =>
        by_cases he : env (pfx ++ (if t = "" then asciiUpper n else t)) = ""
        · rw [loadFields_leaf_empty hcs hk (by simp [isLeafKind]) he] at h
          cases hrest : loadFields env pfx rest with
          | error e => rw [hrest] at h; exact absurd h (by simp)
          | ok rest2 =>
            rw [hrest] at h
            simp at h
            subst hcs
            exact ⟨_, rest2, h.symm, rfl, by
              simp [overlayRel, Field.fname, Field.ftag, Field.settable, Field.fval,
                envKeyOf, hk, he]⟩
        · rw [loadFields_leaf_set hcs hk (by simp [isLeafKind]) he] at h
          cases hset : setFieldValue (.floatV fv) (env (pfx ++ (if t = "" then asciiUpper n else t))) with
          | error e => rw [hset] at h; exact absurd h (by simp)
          | ok v2 =>
            rw [hset] at h
            cases hrest : loadFields env pfx rest with
            | error e => rw [hrest] at h; exact absurd h (by simp)
            | ok rest2 =>
              rw [hrest] at h
              simp at h
              subst hcs
              exact ⟨_, rest2, h.symm, rfl, by
                simp [overlayRel, Field.fname, Field.ftag, Field.settable, Field.fval,
                  envKeyOf, hk, he, hset]⟩
      | sliceV xs =>
        by_cases he : env (pfx ++ (if t = "" then asciiUpper n else t)) = ""
        · rw [loadFields_leaf_empty hcs hk (by simp [isLeafKind]) he] at h
          cases hrest : loadFields env pfx rest with
          | error e => rw [hrest] at h; exact absurd h (by simp)
          | ok rest2 =>
            rw [hrest] at h
            simp at h
            subst hcs
            exact ⟨_, rest2, h.symm, rfl, by
              simp [overlayRel, Field.fname, Field.ftag, Field.settable, Field.fval,
                envKeyOf, hk, he]⟩
        · rw [loadFields_leaf_set hcs hk (by simp [isLeafKind]) he] at h
          exact absurd h (by simp [setFieldValue])
      | mapV es =>
        by_cases he : env (pfx ++ (if t = "" then asciiUpper n else t)) = ""
        · rw [loadFields_leaf_empty hcs hk (by simp [isLeafKind]) he] at h
          cases hrest : loadFields env pfx rest with
          | error e => rw [hrest] at h; exact absurd h (by simp)
          | ok rest2 =>
            rw [hrest] at h
            simp at h
            subst hcs
            exact ⟨_, rest2, h.symm, rfl, by
              simp [overlayRel, Field.fname, Field.ftag, Field.settable, Field.fval,
                envKeyOf, hk, he]⟩
        · rw [loadFields_leaf_set hcs hk (by simp [isLeafKind]) he] at h
          exact absurd h (by simp [setFieldValue])
      | ptrV o =>
        by_cases he : env (pfx ++ (if t = "" then asciiUpper n else t)) = ""
        · rw [loadFields_leaf_empty hcs hk (by simp [isLeafKind]) he] at h
          cases hrest : loadFields env pfx rest with
          | error e => rw [hrest] at h; exact absurd h (by simp)
          | ok rest2 =>
            rw [hrest] at h
            simp at h
            subst hcs
            exact ⟨_, rest2, h.symm, rfl, by
              simp [overlayRel, Field.fname, Field.ftag, Field.settable, Field.fval,
                envKeyOf, hk, he]⟩
        · rw [loadFields_leaf_set hcs hk (by simp [isLeafKind]) he] at h
          exact absurd h (by simp [setFieldValue])
      | ifaceV o =>
        by_cases he : env (pfx ++ (if t = "" then asciiUpper n else t)) = ""
        · rw [loadFields_leaf_empty hcs hk (by simp [isLeafKind]) he] at h
          cases hrest : loadFields env pfx rest with
          | error e => rw [hrest] at h; exact absurd h (by simp)
          | ok rest2 =>
            rw [hrest] at h
            simp at h
            subst hcs
            exact ⟨_, rest2, h.symm, rfl, by
              simp [overlayRel, Field.fname, Field.ftag, Field.settable, Field.fval,
                envKeyOf, hk, he]⟩
        · rw [loadFields_leaf_set hcs hk (by simp [isLeafKind]) he] at h
          exact absurd h (by simp [setFieldValue])
  · have hcs2 : cs = false := by cases cs <;> simp_all
    rw [loadFields_skip hcs2] at h
    cases hrest : loadFields env pfx rest with
    | error e => rw [hrest] at h; exact absurd h (by simp)
    | ok rest2 =>
      rw [hrest] at h
      simp at h
      subst hcs2
      exact ⟨_, rest2, h.symm, rfl, by
        simp [overlayRel, Field.fname, Field.ftag, Field.settable]⟩

end Cfg

namespace Cfg

theorem field_parts_eq {f g : Field} (h1 : f.fname = g.fname) (h2 : f.ftag = g.ftag)
    (h3 : f.settable = g.settable) (h4 : f.fval = g.fval) : f = g := by
  cases f; cases g
  simp [Field.fname, Field.ftag, Field.settable, Field.fval] at h1 h2 h3 h4
  simp [h1, h2, h3, h4]

theorem loadFields_ok_index {env : Env} {pfx : String} :
    ∀ {fs fs2 : List Field}, loadFields env pfx fs = .ok fs2 →
      fs2.length = fs.length ∧
        ∀ (i : Nat) (f : Field), fs[i]? = some f →
          ∃ f2, fs2[i]? = some f2 ∧ overlayRel env pfx f f2 := by
  intro fs
  induction fs with
  | nil =>
    intro fs2 h
    rw [loadFields_nil] at h
    simp at h
    subst h
    simp
  | cons f0 rest ih =>
    intro fs2 h
    obtain ⟨n, t, cs, v⟩ := f0
    obtain ⟨f2, rest2, hshape, hrest, hrel⟩ := loadFields_cons_ok h
    subst hshape
    obtain ⟨hlen, hidx⟩ := ih hrest
    refine ⟨by simp [hlen], ?_⟩
    intro i f hf
    cases i with
    | zero =>
      rw [List.getElem?_cons_zero] at hf
      injection hf with hf
      subst hf
      exact ⟨f2, by rw [List.getElem?_cons_zero], hrel⟩
    | succ j =>
      rw [List.getElem?_cons_succ] at hf
      obtain ⟨g2, hg2, hgrel⟩ := hidx j f hf
      refine ⟨g2, ?_, hgrel⟩
      rw [List.getElem?_cons_succ]
      exact hg2

theorem visit_cons_succ (pfx : String) (f0 : Field) (rest : List Field) (i : Nat)
    (p : List Nat) :
    visit pfx (f0 :: rest) ((i + 1) :: p) = visit pfx rest (i :: p) := by
  simp [visit]

theorem fieldAt_cons_succ (f0 : Field) (rest : List Field) (i : Nat) (p : List Nat) :
    fieldAt (f0 :: rest) ((i + 1) :: p) = fieldAt rest (i :: p) := by
  simp [fieldAt]

/-- Success characterization of the overlay phase along a visited
path: an untouched leaf keeps its value, an overridden leaf holds the
coerced environment value. -/
theorem loadFields_visit_ok {env : Env} :
    ∀ (p : List Nat) {pfx : String} {fs fs2 : List Field} {f : Field} {key : String},
      loadFields env pfx fs = .ok fs2 →
      visit pfx fs p = some (f, key) →
      isLeafKind f.fval = true →
      (env key = "" → fieldAt fs2 p = some f) ∧
        (¬env key = "" → ∃ v2, setFieldValue f.fval (env key) = .ok v2 ∧
          fieldAt fs2 p = some (.mk f.fname f.ftag f.settable v2)) := by
  intro p
  induction p with
  | nil =>
    intro pfx fs fs2 f key _ hv _
    simp [visit] at hv
  | cons i p' ih =>
    intro pfx fs fs2 f key h hv hleaf
    simp only [visit] at hv
    cases hfi : fs[i]? with
    | none => simp only [hfi] at hv; exact absurd hv (by simp)
    | some f0 =>
      simp only [hfi] at hv
      by_cases hcs : f0.settable = true
      · rw [if_pos hcs] at hv
        by_cases hk : envKeyOf f0 = "-"
        · rw [if_pos hk] at hv; exact absurd hv (by simp)
        · rw [if_neg hk] at hv
          obtain ⟨hlen, hidx⟩ := loadFields_ok_index h
          obtain ⟨f2, hf2, hrel⟩ := hidx i f0 hfi
          obtain ⟨hn, ht, hcs2, hrest⟩ := hrel
          rw [if_pos (by rw [hcs] : f0.settable = true)] at hrest
          rw [if_neg hk] at hrest
          cases p' with
          | nil =>
            simp at hv
            obtain ⟨hfe, hke⟩ := hv
            subst hfe
            subst hke
            constructor
            · intro he
              have hval : f2.fval = f0.fval := by
                cases hval0 : f0.fval with
                | structV inner => rw [hval0] at hleaf; simp [isLeafKind] at hleaf
                | str a => rw [hval0] at hrest; simpa [he] using hrest
                | intV a => rw [hval0] at hrest; simpa [he] using hrest
                | uintV a => rw [hval0] at hrest; simpa [he] using hrest
                | boolV a => rw [hval0] at hrest; simpa [he] using hrest
                | floatV a => rw [hval0] at hrest; simpa [he] using hrest
                | sliceV a => rw [hval0] at hrest; simpa [he] using hrest
                | mapV a => rw [hval0] at hrest; simpa [he] using hrest
                | ptrV a => rw [hval0] at hrest; simpa [he] using hrest
                | ifaceV a => rw [hval0] at hrest; simpa [he] using hrest
              have hf2f : f2 = f0 := field_parts_eq hn ht hcs2 hval
              subst hf2f
              simp [fieldAt, hf2]
            · intro he
              have hset : setFieldValue f0.fval (env (pfx ++ envKeyOf f0)) = .ok f2.fval := by
                cases hval0 : f0.fval with
                | structV inner => rw [hval0] at hleaf; simp [isLeafKind] at hleaf
                | str a => rw [hval0] at hrest; simpa [he] using hrest
                | intV a => rw [hval0] at hrest; simpa [he] using hrest
                | uintV a => rw [hval0] at hrest; simpa [he] using hrest
                | boolV a => rw [hval0] at hrest; simpa [he] using hrest
                | floatV a => rw [hval0] at hrest; simpa [he] using hrest
                | sliceV a => rw [hval0] at hrest; simpa [he] using hrest
                | mapV a => rw [hval0] at hrest; simpa [he] using hrest
                | ptrV a => rw [hval0] at hrest; simpa [he] using hrest
                | ifaceV a => rw [hval0] at hrest; simpa [he] using hrest
              refine ⟨f2.fval, hset, ?_⟩
              have hmk : f2 = .mk f0.fname f0.ftag f0.settable f2.fval :=
                field_parts_eq hn ht hcs2 rfl
              rw [← hmk]
              simp [fieldAt, hf2]
          | cons j p'' =>
            cases hval0 : f0.fval with
            | structV inner =>
              simp only [hval0] at hv
              rw [hval0] at hrest
              obtain ⟨inner2, hin, hf2v⟩ := hrest
              have hrec := ih hin hv hleaf
              refine ⟨fun he => ?_, fun he => ?_⟩
              · have := hrec.1 he
                simp [fieldAt, hf2, hf2v]
                exact this
              · obtain ⟨v2, hset, hat⟩ := hrec.2 he
                refine ⟨v2, hset, ?_⟩
                simp [fieldAt, hf2, hf2v]
                exact hat
            | str a => simp only [hval0] at hv; exact absurd hv (by simp)
            | intV a => simp only [hval0] at hv; exact absurd hv (by simp)
            | uintV a => simp only [hval0] at hv; exact absurd hv (by simp)
            | boolV a => simp only [hval0] at hv; exact absurd hv (by simp)
            | floatV a => simp only [hval0] at hv; exact absurd hv (by simp)
            | sliceV a => simp only [hval0] at hv; exact absurd hv (by simp)
            | mapV a => simp only [hval0] at hv; exact absurd hv (by simp)
            | ptrV a => simp only [hval0] at hv; exact absurd hv (by simp)
            | ifaceV a => simp only [hval0] at hv; exact absurd hv (by simp)
      · rw [if_neg hcs] at hv; exact absurd hv (by simp)

end Cfg

namespace Cfg

/-- Evidence that a load error is a `FieldBindError` produced by an
actually-failing visited leaf: it names a field whose derived key held
a non-empty value that `setFieldValue` rejected, and carries that
failure as its cause. -/
def errWitness (env : Env) (pfx : String) (fs : List Field) (e : LoadError) : Prop :=
  ∃ nm key c, e = .fieldBind nm key c ∧
    ∃ p f, visit pfx fs p = some (f, key) ∧ f.fname = nm ∧ isLeafKind f.fval = true ∧
      ¬env key = "" ∧ setFieldValue f.fval (env key) = .error c

theorem errWitness_cons {env : Env} {pfx : String} {f0 : Field} {rest : List Field}
    {e : LoadError} (h : errWitness env pfx rest e) : errWitness env pfx (f0 :: rest) e := by
  obtain ⟨nm, key, c, he, p, f, hv, hn, hl, hne, hset⟩ := h
  cases p with
  | nil => simp [visit] at hv
  | cons i p' =>
    exact ⟨nm, key, c, he, (i + 1) :: p', f, by rw [visit_cons_succ]; exact hv,
      hn, hl, hne, hset⟩

theorem visit_zero_struct {pfx n t : String} {inner rest : List Field} {j : Nat}
    {p : List Nat} (hk : ¬(if t = "" then asciiUpper n else t) = "-") :
    visit pfx (.mk n t true (.structV inner) :: rest) (0 :: j :: p) =
      visit (pfx ++ (if t = "" then asciiUpper n else t) ++ "_") inner (j :: p) := by
  simp [visit, envKeyOf, Field.settable, Field.ftag, Field.fname, Field.fval, hk]

theorem visit_zero_self {pfx n t : String} {v : Val} {rest : List Field}
    (hk : ¬(if t = "" then asciiUpper n else t) = "-") :
    visit pfx (.mk n t true v :: rest) [0] =
      some (.mk n t true v, pfx ++ (if t = "" then asciiUpper n else t)) := by
  simp [visit, envKeyOf, Field.settable, Field.ftag, Field.fname, hk]

theorem errWitness_struct {env : Env} {pfx n t : String} {inner rest : List Field}
    {e : LoadError} (hk : ¬(if t = "" then asciiUpper n else t) = "-")
    (h : errWitness env (pfx ++ (if t = "" then asciiUpper n else t) ++ "_") inner e) :
    errWitness env pfx (.mk n t true (.structV inner) :: rest) e := by
  obtain ⟨nm, key, c, he, p, f, hv, hn, hl, hne, hset⟩ := h
  cases p with
  | nil => simp [visit] at hv
  | cons j p' =>
    exact ⟨nm, key, c, he, 0 :: j :: p', f, by rw [visit_zero_struct hk]; exact hv,
      hn, hl, hne, hset⟩

theorem structV_of_not_leaf {v : Val} (h : ¬isLeafKind v = true) :
    ∃ inner, v = .structV inner := by
  cases v <;> simp [isLeafKind] at h ⊢

/-- Every error the overlay phase produces is a `FieldBindError`
witnessed by a genuinely failing visited leaf. -/
theorem loadFields_error_shape {env : Env} :
    ∀ (N : Nat) (fs : List Field), sizeOf fs < N → ∀ (pfx : String) (e : LoadError),
      loadFields env pfx fs = .error e → errWitness env pfx fs e := by
  intro N
  induction N with
  | zero => intro fs h; omega
  | succ N ih =>
    intro fs hsz pfx e h
    cases fs with
    | nil => rw [loadFields_nil] at h; exact absurd h (by simp)
    | cons f0 rest =>
      obtain ⟨n, t, cs, v⟩ := f0
      have hszr : sizeOf rest < N := by
        simp only [List.cons.sizeOf_spec, Field.mk.sizeOf_spec] at hsz
        omega
      by_cases hcs : cs = true
      · by_cases hk : (if t = "" then asciiUpper n else t) = "-"
        · rw [loadFields_dash hcs hk] at h
          cases hrest : loadFields env pfx rest with
          | error e0 =>
            rw [hrest] at h
            simp at h
            subst h
            exact errWitness_cons (ih rest hszr pfx e0 hrest)
          | ok rest2 => rw [hrest] at h; exact absurd h (by simp)
        · by_cases hl : isLeafKind v = true
          · by_cases he : env (pfx ++ (if t = "" then asciiUpper n else t)) = ""
            · rw [loadFields_leaf_empty hcs hk hl he] at h
              cases hrest : loadFields env pfx rest with
              | error e0 =>
                rw [hrest] at h
                simp at h
                subst h
                exact errWitness_cons (ih rest hszr pfx e0 hrest)
              | ok rest2 => rw [hrest] at h; exact absurd h (by simp)
            · rw [loadFields_leaf_set hcs hk hl he] at h
              cases hset : setFieldValue v (env (pfx ++ (if t = "" then asciiUpper n else t))) with
              | error c0 =>
                rw [hset] at h
                simp at h
                subst h
                subst hcs
                exact ⟨n, pfx ++ (if t = "" then asciiUpper n else t), c0, rfl,
                  [0], .mk n t true v, visit_zero_self hk, rfl, hl, he, hset⟩
              | ok v2 =>
                rw [hset] at h
                cases hrest : loadFields env pfx rest with
                | error e0 =>
                  rw [hrest] at h
                  simp at h
                  subst h
                  exact errWitness_cons (ih rest hszr pfx e0 hrest)
                | ok rest2 => rw [hrest] at h; exact absurd h (by simp)
          · obtain ⟨inner, hv⟩ := structV_of_not_leaf hl
            subst hv
            have hszi : sizeOf inner < N := by
              simp only [List.cons.sizeOf_spec, Field.mk.sizeOf_spec,
                Val.structV.sizeOf_spec] at hsz
              omega
            rw [loadFields_struct hcs hk] at h
            cases hin : loadFields env (pfx ++ (if t = "" then asciiUpper n else t) ++ "_") inner with
            | error e0 =>
              rw [hin] at h
              simp at h
              subst h
              subst hcs
              exact errWitness_struct hk (ih inner hszi _ e0 hin)
            | ok inner2 =>
              rw [hin] at h
              cases hrest : loadFields env pfx rest with
              | error e0 =>
                rw [hrest] at h
                simp at h
                subst h
                exact errWitness_cons (ih rest hszr pfx e0 hrest)
              | ok rest2 => rw [hrest] at h; exact absurd h (by simp)
      · have hcs2 : cs = false := by cases cs <;> simp_all
        rw [loadFields_skip hcs2] at h
        cases hrest : loadFields env pfx rest with
        | error e0 =>
          rw [hrest] at h
          simp at h
          subst h
          exact errWitness_cons (ih rest hszr pfx e0 hrest)
        | ok rest2 => rw [hrest] at h; exact absurd h (by simp)

/-- A visited leaf whose non-empty environment value fails to coerce
forces the overlay phase to fail. -/
theorem loadFields_fails_of_bad_leaf {env : Env} {pfx : String} {fs : List Field}
    {p : List Nat} {f : Field} {key : String} {c : SetErr}
    (hv : visit pfx fs p = some (f, key)) (hl : isLeafKind f.fval = true)
    (hne : ¬env key = "") (hbad : setFieldValue f.fval (env key) = .error c) :
    ∃ e, loadFields env pfx fs = .error e := by
  cases hres : loadFields env pfx fs with
  | error e => exact ⟨e, rfl⟩
  | ok fs2 =>
    obtain ⟨v2, hok, _⟩ := (loadFields_visit_ok p hres hv hl).2 hne
    rw [hbad] at hok
    exact absurd hok (by simp)

end Cfg

namespace Cfg

theorem envKeys_nil (pfx : String) : envKeys pfx [] = [] := by
  simp [envKeys]

theorem envKeys_skip {pfx n t : String} {cs : Bool} {v : Val} {rest : List Field}
    (hcs : cs = false) :
    envKeys pfx (.mk n t cs v :: rest) = envKeys pfx rest := by
  subst hcs
  cases v <;> simp [envKeys]

theorem envKeys_dash {pfx n t : String} {cs : Bool} {v : Val} {rest : List Field}
    (hcs : cs = true) (hk : (if t = "" then asciiUpper n else t) = "-") :
    envKeys pfx (.mk n t cs v :: rest) = envKeys pfx rest := by
  subst hcs
  cases v <;> simp [envKeys, hk]

theorem envKeys_struct {pfx n t : String} {cs : Bool} {inner rest : List Field}
    (hcs : cs = true) (hk : ¬(if t = "" then asciiUpper n else t) = "-") :
    envKeys pfx (.mk n t cs (.structV inner) :: rest) =
      envKeys (pfx ++ (if t = "" then asciiUpper n else t) ++ "_") inner ++
        envKeys pfx rest := by
  subst hcs
  simp [envKeys, hk]

theorem envKeys_leaf {pfx n t : String} {cs : Bool} {v : Val} {rest : List Field}
    (hcs : cs = true) (hk : ¬(if t = "" then asciiUpper n else t) = "-")
    (hl : isLeafKind v = true) :
    envKeys pfx (.mk n t cs v :: rest) =
      (pfx ++ (if t = "" then asciiUpper n else t)) :: envKeys pfx rest := by
  subst hcs
  cases v <;> first
    | (simp [envKeys, hk]; done)
    | exact absurd hl (by simp [isLeafKind])

/-- Which environment keys the overlay phase reads is all that
matters: two environments agreeing on every derived key of the tree
drive the phase to identical results. -/
theorem loadFields_locality {env1 env2 : Env} :
    ∀ (N : Nat) (fs : List Field), sizeOf fs < N → ∀ (pfx : String),
      (∀ k, k ∈ envKeys pfx fs → env1 k = env2 k) →
      loadFields env1 pfx fs = loadFields env2 pfx fs := by
  intro N
  induction N with
  | zero => intro fs h; omega
  | succ N ih =>
    intro fs hsz pfx hag
    cases fs with
    | nil => rw [loadFields_nil, loadFields_nil]
    | cons f0 rest =>
      obtain ⟨n, t, cs, v⟩ := f0
      have hszr : sizeOf rest < N := by
        simp only [List.cons.sizeOf_spec, Field.mk.sizeOf_spec] at hsz
        omega
      by_cases hcs : cs = true
      · by_cases hk : (if t = "" then asciiUpper n else t) = "-"
        · have hagr : ∀ k, k ∈ envKeys pfx rest → env1 k = env2 k := by
            intro k hkm
            exact hag k (by rw [envKeys_dash hcs hk]; exact hkm)
          rw [loadFields_dash hcs hk, loadFields_dash hcs hk, ih rest hszr pfx hagr]
        · by_cases hl : isLeafKind v = true
          · have hkey : env1 (pfx ++ (if t = "" then asciiUpper n else t)) =
                env2 (pfx ++ (if t = "" then asciiUpper n else t)) := by
              refine hag _ ?_
              rw [envKeys_leaf hcs hk hl]
              exact List.mem_cons_self _ _
            have hagr : ∀ k, k ∈ envKeys pfx rest → env1 k = env2 k := by
              intro k hkm
              refine hag k ?_
              rw [envKeys_leaf hcs hk hl]
              exact List.mem_cons_of_mem _ hkm
            by_cases he : env1 (pfx ++ (if t = "" then asciiUpper n else t)) = ""
            · rw [loadFields_leaf_empty hcs hk hl he,
                loadFields_leaf_empty hcs hk hl (by rw [← hkey]; exact he),
                ih rest hszr pfx hagr]
            · rw [loadFields_leaf_set hcs hk hl he,
                loadFields_leaf_set hcs hk hl (by rw [← hkey]; exact he),
                hkey, ih rest hszr pfx hagr]
          · obtain ⟨inner, hv⟩ := structV_of_not_leaf hl
            subst hv
            have hszi : sizeOf inner < N := by
              simp only [List.cons.sizeOf_spec, Field.mk.sizeOf_spec,
                Val.structV.sizeOf_spec] at hsz
              omega
            have hagi : ∀ k, k ∈ envKeys (pfx ++ (if t = "" then asciiUpper n else t) ++ "_")
                inner → env1 k = env2 k := by
              intro k hkm
              refine hag k ?_
              rw [envKeys_struct hcs hk]
              exact List.mem_append_left _ hkm
            have hagr : ∀ k, k ∈ envKeys pfx rest → env1 k = env2 k := by
              intro k hkm
              refine hag k ?_
              rw [envKeys_struct hcs hk]
              exact List.mem_append_right _ hkm
            rw [loadFields_struct hcs hk, loadFields_struct hcs hk,
              ih inner hszi _ hagi, ih rest hszr pfx hagr]
      · have hcs2 : cs = false := by cases cs <;> simp_all
        have hagr : ∀ k, k ∈ envKeys pfx rest → env1 k = env2 k := by
          intro k hkm
          exact hag k (by rw [envKeys_skip hcs2]; exact hkm)
        rw [loadFields_skip hcs2, loadFields_skip hcs2, ih rest hszr pfx hagr]

/-- Every derived key factors as the caller-supplied prefix followed
by a prefix-independent suffix: changing only the prefix changes only
the leading segment of every derived key. -/
theorem envKeys_prefix_factor :
    ∀ (N : Nat) (fs : List Field), sizeOf fs < N → ∀ (pfx : String),
      envKeys pfx fs = (envKeys "" fs).map (fun k => pfx ++ k) := by
  intro N
  induction N with
  | zero => intro fs h; omega
  | succ N ih =>
    intro fs hsz pfx
    cases fs with
    | nil => rw [envKeys_nil, envKeys_nil]; simp
    | cons f0 rest =>
      obtain ⟨n, t, cs, v⟩ := f0
      have hszr : sizeOf rest < N := by
        simp only [List.cons.sizeOf_spec, Field.mk.sizeOf_spec] at hsz
        omega
      by_cases hcs : cs = true
      · by_cases hk : (if t = "" then asciiUpper n else t) = "-"
        · rw [envKeys_dash hcs hk, envKeys_dash hcs hk, ih rest hszr]
        · by_cases hl : isLeafKind v = true
          · rw [envKeys_leaf hcs hk hl, envKeys_leaf hcs hk hl, ih rest hszr]
            simp [String.empty_append]
          · obtain ⟨inner, hv⟩ := structV_of_not_leaf hl
            subst hv
            have hszi : sizeOf inner < N := by
              simp only [List.cons.sizeOf_spec, Field.mk.sizeOf_spec,
                Val.structV.sizeOf_spec] at hsz
              omega
            rw [envKeys_struct hcs hk, envKeys_struct hcs hk,
              ih inner hszi (pfx ++ (if t = "" then asciiUpper n else t) ++ "_"),
              ih inner hszi ("" ++ (if t = "" then asciiUpper n else t) ++ "_"),
              ih rest hszr]
            simp only [List.map_append, List.map_map]
            congr 1
            apply List.map_congr_left
            intro k _
            simp [Function.comp, String.empty_append, String.append_assoc]
      · have hcs2 : cs = false := by cases cs <;> simp_all
        rw [envKeys_skip hcs2, envKeys_skip hcs2, ih rest hszr]

end Cfg

namespace Cfg

/-- Lookup of a map entry by key (`reflect.Value.MapIndex`). -/
def findEntry (k : String) : List (String × Val) → Option Val
  | [] => none
  | (k2, v) :: rest => if k2 = k then some v else findEntry k rest

/-- One navigation step into a value: struct field by index, sequence
element by index, map value by key, pointer dereference, interface
unboxing. -/
inductive Step : Type where
  | fieldIdx (i : Nat)
  | elemIdx (i : Nat)
  | entryKey (k : String)
  | deref
  | unbox
deriving DecidableEq, Repr

/-- Value reached by a navigation path. -/
def valAt : Val → List Step → Option Val
  | v, [] => some v
  | .structV fs, .fieldIdx i :: p =>
    match fs[i]? with
    | some f => valAt f.fval p
    | none => none
  | .sliceV xs, .elemIdx i :: p =>
    match xs[i]? with
    | some w => valAt w p
    | none => none
  | .mapV es, .entryKey k :: p =>
    match findEntry k es with
    | some w => valAt w p
    | none => none
  | .ptrV (some w), .deref :: p => valAt w p
  | .ifaceV (some w), .unbox :: p => valAt w p
  | _, _ => none

/-- Whether the interpolation walk rewrites the string leaf at a path,
given the addressability flags of the root.  This mirrors the flag
propagation of `substituteValue` step by step, including the
`SetMapIndex` special case for string (or interface-wrapped string)
map values. -/
def rewroteAt : Bool → Bool → Val → List Step → Option Bool
  | addr, ro, .str _, [] => some (addr && !ro)
  | addr, ro, .structV fs, .fieldIdx i :: p =>
    match fs[i]? with
    | some f => rewroteAt addr (ro || !f.settable) f.fval p
    | none => none
  | _, ro, .sliceV xs, .elemIdx i :: p =>
    match xs[i]? with
    | some w => rewroteAt true ro w p
    | none => none
  | _, ro, .mapV es, .entryKey k :: p =>
    match findEntry k es with
    | none => none
    | some w =>
      match w, p with
      | .str _, [] => some (!ro)
      | .ifaceV (some (.str _)), [.unbox] => some (!ro)
      | .ifaceV (some w2), .unbox :: p2 => rewroteAt false ro w2 p2
      | w2, p2 => rewroteAt false ro w2 p2
  | _, ro, .ptrV (some w), .deref :: p => rewroteAt true ro w p
  | _, ro, .ifaceV (some w), .unbox :: p => rewroteAt false ro w p
  | _, _, _, _ => none

mutual
/-- Erasure of every string leaf to `""`, used to state that the
interpolation walk changes nothing but strings. -/
def eraseStrings : Val → Val
  | .str _ => .str ""
  | .structV fs => .structV (eraseFields fs)
  | .sliceV xs => .sliceV (eraseElems xs)
  | .mapV es => .mapV (eraseEntries es)
  | .ptrV (some v) => .ptrV (some (eraseStrings v))
  | .ptrV none => .ptrV none
  | .ifaceV (some v) => .ifaceV (some (eraseStrings v))
  | .ifaceV none => .ifaceV none
  | v => v
termination_by v => sizeOf v
decreasing_by all_goals (simp <;> omega)

def eraseFields : List Field → List Field
  | [] => []
  | .mk n t cs v :: rest => .mk n t cs (eraseStrings v) :: eraseFields rest
termination_by fs => sizeOf fs
decreasing_by all_goals (simp <;> omega)

def eraseElems : List Val → List Val
  | [] => []
  | v :: rest => eraseStrings v :: eraseElems rest
termination_by xs => sizeOf xs
decreasing_by all_goals (simp <;> omega)

def eraseEntries : List (String × Val) → List (String × Val)
  | [] => []
  | (k, v) :: rest => (k, eraseStrings v) :: eraseEntries rest
termination_by es => sizeOf es
decreasing_by all_goals (simp <;> omega)
end

theorem substFields_getElem (env : Env) (a r : Bool) (fs : List Field) (i : Nat) :
    (substFields env a r fs)[i]? =
      (fs[i]?).map (fun f =>
        .mk f.fname f.ftag f.settable
          (substituteValue env a (r || !f.settable) f.fval)) := by
  induction fs generalizing i with
  | nil => simp [substFields]
  | cons f0 rest ih =>
    obtain ⟨n, t, cs, v⟩ := f0
    cases i with
    | zero => simp [substFields, Field.fname, Field.ftag, Field.settable, Field.fval]
    | succ j => simp [substFields, ih]

theorem substElems_getElem (env : Env) (r : Bool) (xs : List Val) (i : Nat) :
    (substElems env r xs)[i]? = (xs[i]?).map (substituteValue env true r) := by
  induction xs generalizing i with
  | nil => simp [substElems]
  | cons v rest ih =>
    cases i with
    | zero => simp [substElems]
    | succ j => simp [substElems, ih]

theorem substEntries_find (env : Env) (r : Bool) (es : List (String × Val)) (k : String) :
    findEntry k (substEntries env r es) = (findEntry k es).map (substMapVal env r) := by
  induction es with
  | nil => simp [substEntries, findEntry]
  | cons e rest ih =>
    obtain ⟨k2, v⟩ := e
    by_cases hkk : k2 = k
    · simp [substEntries, findEntry, hkk]
    · simp [substEntries, findEntry, hkk, ih]

end Cfg

namespace Cfg

theorem substMapVal_eq_subst {env : Env} {r : Bool} {w : Val}
    (hs : ∀ s0, w ≠ .str s0) (hi : ∀ w2, w ≠ .ifaceV (some w2)) :
    substMapVal env r w = substituteValue env false r w := by
  cases w with
  | str s0 => exact absurd rfl (hs s0)
  | ifaceV o =>
    cases o with
    | none => simp [substMapVal, substituteValue]
    | some w2 => exact absurd rfl (hi w2)
  | structV fs => simp [substMapVal]
  | sliceV xs => simp [substMapVal]
  | mapV es => simp [substMapVal]
  | ptrV o => simp [substMapVal]
  | intV a => simp [substMapVal, substituteValue]
  | uintV a => simp [substMapVal, substituteValue]
  | boolV a => simp [substMapVal, substituteValue]
  | floatV a => simp [substMapVal, substituteValue]

def atomicVal : Val → Bool
  | .str _ => true
  | .intV _ => true
  | .uintV _ => true
  | .boolV _ => true
  | .floatV _ => true
  | .ptrV none => true
  | .ifaceV none => true
  | _ => false

theorem valAt_atomic_cons {v : Val} (hat : atomicVal v = true) (st : Step) (p : List Step) :
    valAt v (st :: p) = none := by
  cases v with
  | ptrV o =>
    cases o with
    | none => cases st <;> rfl
    | some w => simp [atomicVal] at hat
  | ifaceV o =>
    cases o with
    | none => cases st <;> rfl
    | some w => simp [atomicVal] at hat
  | str s => cases st <;> rfl
  | intV a => cases st <;> rfl
  | uintV a => cases st <;> rfl
  | boolV a => cases st <;> rfl
  | floatV a => cases st <;> rfl
  | structV fs => simp [atomicVal] at hat
  | sliceV xs => simp [atomicVal] at hat
  | mapV es => simp [atomicVal] at hat

theorem valAt_unbox_some (w2 : Val) (p : List Step) :
    valAt (.ifaceV (some w2)) (.unbox :: p) = valAt w2 p := rfl

theorem rewroteAt_unbox_some (a r : Bool) (w2 : Val) (p : List Step) :
    rewroteAt a r (.ifaceV (some w2)) (.unbox :: p) = rewroteAt false r w2 p := rfl

theorem valAt_iface_some_non_unbox (w2 : Val) {st : Step} (p : List Step)
    (h : ¬st = .unbox) : valAt (.ifaceV (some w2)) (st :: p) = none := by
  cases st <;> first | rfl | exact absurd rfl h

theorem rewroteAt_total :
    ∀ (p : List Step) (v : Val) (a r : Bool) (s : String),
      valAt v p = some (.str s) → ∃ b, rewroteAt a r v p = some b := by
  intro p
  induction p with
  | nil =>
    intro v a r s h1
    have hv : v = .str s := by simpa [valAt] using h1
    subst hv
    exact ⟨a && !r, by simp [rewroteAt]⟩
  | cons st p' ih =>
    intro v a r s h1
    cases st with
    | fieldIdx i =>
      cases v <;> simp [valAt] at h1
      case structV fs =>
        cases hfi : fs[i]? with
        | none => rw [hfi] at h1; simp at h1
        | some f =>
          rw [hfi] at h1
          simp at h1
          obtain ⟨b, hb⟩ := ih f.fval a (r || !f.settable) s h1
          exact ⟨b, by simp [rewroteAt, hfi, hb]⟩
    | elemIdx i =>
      cases v <;> simp [valAt] at h1
      case sliceV xs =>
        cases hfi : xs[i]? with
        | none => rw [hfi] at h1; simp at h1
        | some w =>
          rw [hfi] at h1
          simp at h1
          obtain ⟨b, hb⟩ := ih w true r s h1
          exact ⟨b, by simp [rewroteAt, hfi, hb]⟩
    | deref =>
      cases v <;> try simp [valAt] at h1
      case ptrV o =>
        cases o with
        | none =>
          rw [valAt_atomic_cons (by simp [atomicVal])] at h1
          exact absurd h1 (by simp)
        | some w =>
          simp [valAt] at h1
          obtain ⟨b, hb⟩ := ih w true r s h1
          exact ⟨b, by simp [rewroteAt, hb]⟩
    | unbox =>
      cases v <;> try simp [valAt] at h1
      case ifaceV o =>
        cases o with
        | none =>
          rw [valAt_atomic_cons (by simp [atomicVal])] at h1
          exact absurd h1 (by simp)
        | some w =>
          simp [valAt] at h1
          obtain ⟨b, hb⟩ := ih w false r s h1
          exact ⟨b, by simp [rewroteAt, hb]⟩
    | entryKey k =>
      cases v <;> simp [valAt] at h1
      case mapV es =>
        cases hfe : findEntry k es with
        | none => rw [hfe] at h1; simp at h1
        | some w =>
          rw [hfe] at h1
          simp at h1
          cases w with
          | str s0 =>
            cases p' with
            | nil => exact ⟨!r, by simp [rewroteAt, hfe]⟩
            | cons st2 p2 =>
              rw [valAt_atomic_cons (by simp [atomicVal])] at h1
              exact absurd h1 (by simp)
          | ifaceV o =>
            cases o with
            | none =>
              cases p' with
              | nil => simp [valAt] at h1
              | cons st2 p2 =>
                rw [valAt_atomic_cons (by simp [atomicVal])] at h1
                exact absurd h1 (by simp)
            | some w2 =>
              cases p' with
              | nil => simp [valAt] at h1
              | cons st2 p2 =>
                by_cases hst2 : st2 = .unbox
                · subst hst2
                  rw [valAt_unbox_some] at h1
                  cases w2 with
                  | str s0 =>
                    cases p2 with
                    | nil => exact ⟨!r, by simp [rewroteAt, hfe]⟩
                    | cons st3 p3 =>
                      rw [valAt_atomic_cons (by simp [atomicVal])] at h1
                      exact absurd h1 (by simp)
                  | structV fs =>
                    obtain ⟨b, hb⟩ :=
                      ih (.ifaceV (some (.structV fs))) false r s
                        (by rw [valAt_unbox_some]; exact h1)
                    rw [rewroteAt_unbox_some] at hb
                    exact ⟨b, by simp [rewroteAt, hfe, hb]⟩
                  | sliceV xs =>
                    obtain ⟨b, hb⟩ :=
                      ih (.ifaceV (some (.sliceV xs))) false r s
                        (by rw [valAt_unbox_some]; exact h1)
                    rw [rewroteAt_unbox_some] at hb
                    exact ⟨b, by simp [rewroteAt, hfe, hb]⟩
                  | mapV es2 =>
                    obtain ⟨b, hb⟩ :=
                      ih (.ifaceV (some (.mapV es2))) false r s
                        (by rw [valAt_unbox_some]; exact h1)
                    rw [rewroteAt_unbox_some] at hb
                    exact ⟨b, by simp [rewroteAt, hfe, hb]⟩
                  | ptrV o2 =>
                    obtain ⟨b, hb⟩ :=
                      ih (.ifaceV (some (.ptrV o2))) false r s
                        (by rw [valAt_unbox_some]; exact h1)
                    rw [rewroteAt_unbox_some] at hb
                    exact ⟨b, by simp [rewroteAt, hfe, hb]⟩
                  | ifaceV o2 =>
                    obtain ⟨b, hb⟩ :=
                      ih (.ifaceV (some (.ifaceV o2))) false r s
                        (by rw [valAt_unbox_some]; exact h1)
                    rw [rewroteAt_unbox_some] at hb
                    exact ⟨b, by simp [rewroteAt, hfe, hb]⟩
                  | intV a2 =>
                    cases p2 with
                    | nil => simp [valAt] at h1
                    | cons st3 p3 =>
                      rw [valAt_atomic_cons (by simp [atomicVal])] at h1
                      exact absurd h1 (by simp)
                  | uintV a2 =>
                    cases p2 with
                    | nil => simp [valAt] at h1
                    | cons st3 p3 =>
                      rw [valAt_atomic_cons (by simp [atomicVal])] at h1
                      exact absurd h1 (by simp)
                  | boolV a2 =>
                    cases p2 with
                    | nil => simp [valAt] at h1
                    | cons st3 p3 =>
                      rw [valAt_atomic_cons (by simp [atomicVal])] at h1
                      exact absurd h1 (by simp)
                  | floatV a2 =>
                    cases p2 with
                    | nil => simp [valAt] at h1
                    | cons st3 p3 =>
                      rw [valAt_atomic_cons (by simp [atomicVal])] at h1
                      exact absurd h1 (by simp)
                · rw [valAt_iface_some_non_unbox _ _ hst2] at h1
                  exact absurd h1 (by simp)
          | structV fs =>
            obtain ⟨b, hb⟩ := ih (.structV fs) false r s h1
            exact ⟨b, by simp [rewroteAt, hfe, hb]⟩
          | sliceV xs =>
            obtain ⟨b, hb⟩ := ih (.sliceV xs) false r s h1
            exact ⟨b, by simp [rewroteAt, hfe, hb]⟩
          | mapV es2 =>
            obtain ⟨b, hb⟩ := ih (.mapV es2) false r s h1
            exact ⟨b, by simp [rewroteAt, hfe, hb]⟩
          | ptrV o =>
            obtain ⟨b, hb⟩ := ih (.ptrV o) false r s h1
            exact ⟨b, by simp [rewroteAt, hfe, hb]⟩
          | intV a2 =>
            cases p' with
            | nil => simp [valAt] at h1
            | cons st2 p2 =>
              rw [valAt_atomic_cons (by simp [atomicVal])] at h1
              exact absurd h1 (by simp)
          | uintV a2 =>
            cases p' with
            | nil => simp [valAt] at h1
            | cons st2 p2 =>
              rw [valAt_atomic_cons (by simp [atomicVal])] at h1
              exact absurd h1 (by simp)
          | boolV a2 =>
            cases p' with
            | nil => simp [valAt] at h1
            | cons st2 p2 =>
              rw [valAt_atomic_cons (by simp [atomicVal])] at h1
              exact absurd h1 (by simp)
          | floatV a2 =>
            cases p' with
            | nil => simp [valAt] at h1
            | cons st2 p2 =>
              rw [valAt_atomic_cons (by simp [atomicVal])] at h1
              exact absurd h1 (by simp)

/-- Path-indexed characterization of the interpolation walk: a string
leaf is replaced by its expansion exactly when the reflect flags say
it is settable there (`rewroteAt`), and is kept verbatim otherwise. -/
theorem valAt_subst {env : Env} :
    ∀ (p : List Step) (v : Val) (a r : Bool) (s : String) (b : Bool),
      valAt v p = some (.str s) → rewroteAt a r v p = some b →
      valAt (substituteValue env a r v) p =
        some (.str (if b then expandEnvVar env s else s)) := by
  intro p
  induction p with
  | nil =>
    intro v a r s b h1 h2
    have hv : v = .str s := by simpa [valAt] using h1
    subst hv
    simp only [rewroteAt, Option.some.injEq] at h2
    subst h2
    by_cases hc : (a && !r) = true <;> simp [substituteValue, valAt, hc]
  | cons st p' ih =>
    intro v a r s b h1 h2
    cases st with
    | fieldIdx i =>
      cases v <;> try simp [valAt] at h1
      case structV fs =>
        cases hfi : fs[i]? with
        | none => rw [hfi] at h1; simp at h1
        | some f =>
          rw [hfi] at h1
          simp at h1
          simp only [rewroteAt, hfi] at h2
          have := ih f.fval a (r || !f.settable) s b h1 h2
          simp only [substituteValue, valAt, substFields_getElem, hfi, Option.map_some,
            Field.fval]
          exact this
    | elemIdx i =>
      cases v <;> try simp [valAt] at h1
      case sliceV xs =>
        cases hfi : xs[i]? with
        | none => rw [hfi] at h1; simp at h1
        | some w =>
          rw [hfi] at h1
          simp at h1
          simp only [rewroteAt, hfi] at h2
          have := ih w true r s b h1 h2
          simp only [substituteValue, valAt, substElems_getElem, hfi, Option.map_some]
          exact this
    | deref =>
      cases v <;> try simp [valAt] at h1
      case ptrV o =>
        cases o with
        | none =>
          rw [valAt_atomic_cons (by simp [atomicVal])] at h1
          exact absurd h1 (by simp)
        | some w =>
          simp [valAt] at h1
          simp only [rewroteAt] at h2
          have := ih w true r s b h1 h2
          simp only [substituteValue, valAt]
          exact this
    | unbox =>
      cases v <;> try simp [valAt] at h1
      case ifaceV o =>
        cases o with
        | none =>
          rw [valAt_atomic_cons (by simp [atomicVal])] at h1
          exact absurd h1 (by simp)
        | some w =>
          simp [valAt] at h1
          simp only [rewroteAt] at h2
          have := ih w false r s b h1 h2
          simp only [substituteValue, valAt]
          exact this
    | entryKey k =>
      cases v <;> try simp [valAt] at h1
      case mapV es =>
        cases hfe : findEntry k es with
        | none => rw [hfe] at h1; simp at h1
        | some w =>
          rw [hfe] at h1
          simp at h1
          simp only [valAt, substituteValue, substEntries_find, hfe, Option.map_some]
          cases w with
          | str s0 =>
            cases p' with
            | nil =>
              simp [valAt] at h1
              subst h1
              simp only [rewroteAt, hfe, Option.some.injEq] at h2
              subst h2
              by_cases hr : r = true <;> simp [substMapVal, valAt, hr]
            | cons st2 p2 =>
              rw [valAt_atomic_cons (by simp [atomicVal])] at h1
              exact absurd h1 (by simp)
          | ifaceV o =>
            cases o with
            | none =>
              cases p' with
              | nil => simp [valAt] at h1
              | cons st2 p2 =>
                rw [valAt_atomic_cons (by simp [atomicVal])] at h1
                exact absurd h1 (by simp)
            | some w2 =>
              cases p' with
              | nil => simp [valAt] at h1
              | cons st2 p2 =>
                by_cases hst2 : st2 = .unbox
                · subst hst2
                  rw [valAt_unbox_some] at h1
                  cases w2 with
                  | str s0 =>
                    cases p2 with
                    | nil =>
                      simp [valAt] at h1
                      subst h1
                      simp only [rewroteAt, hfe, Option.some.injEq] at h2
                      subst h2
                      by_cases hr : r = true <;> simp [substMapVal, valAt, hr]
                    | cons st3 p3 =>
                      rw [valAt_atomic_cons (by simp [atomicVal])] at h1
                      exact absurd h1 (by simp)
                  | structV fs =>
                    simp only [rewroteAt, hfe] at h2
                    have := ih (.ifaceV (some (.structV fs))) false r s b
                      (by rw [valAt_unbox_some]; exact h1)
                      (by rw [rewroteAt_unbox_some]; exact h2)
                    simpa [substMapVal, substituteValue] using this
                  | sliceV xs =>
                    simp only [rewroteAt, hfe] at h2
                    have := ih (.ifaceV (some (.sliceV xs))) false r s b
                      (by rw [valAt_unbox_some]; exact h1)
                      (by rw [rewroteAt_unbox_some]; exact h2)
                    simpa [substMapVal, substituteValue] using this
                  | mapV es2 =>
                    simp only [rewroteAt, hfe] at h2
                    have := ih (.ifaceV (some (.mapV es2))) false r s b
                      (by rw [valAt_unbox_some]; exact h1)
                      (by rw [rewroteAt_unbox_some]; exact h2)
                    simpa [substMapVal, substituteValue] using this
                  | ptrV o2 =>
                    simp only [rewroteAt, hfe] at h2
                    have := ih (.ifaceV (some (.ptrV o2))) false r s b
                      (by rw [valAt_unbox_some]; exact h1)
                      (by rw [rewroteAt_unbox_some]; exact h2)
                    simpa [substMapVal, substituteValue] using this
                  | ifaceV o2 =>
                    simp only [rewroteAt, hfe] at h2
                    have := ih (.ifaceV (some (.ifaceV o2))) false r s b
                      (by rw [valAt_unbox_some]; exact h1)
                      (by rw [rewroteAt_unbox_some]; exact h2)
                    simpa [substMapVal, substituteValue] using this
                  | intV a2 =>
                    cases p2 with
                    | nil => simp [valAt] at h1
                    | cons st3 p3 =>
                      rw [valAt_atomic_cons (by simp [atomicVal])] at h1
                      exact absurd h1 (by simp)
                  | uintV a2 =>
                    cases p2 with
                    | nil => simp [valAt] at h1
                    | cons st3 p3 =>
                      rw [valAt_atomic_cons (by simp [atomicVal])] at h1
                      exact absurd h1 (by simp)
                  | boolV a2 =>
                    cases p2 with
                    | nil => simp [valAt] at h1
                    | cons st3 p3 =>
                      rw [valAt_atomic_cons (by simp [atomicVal])] at h1
                      exact absurd h1 (by simp)
                  | floatV a2 =>
                    cases p2 with
                    | nil => simp [valAt] at h1
                    | cons st3 p3 =>
                      rw [valAt_atomic_cons (by simp [atomicVal])] at h1
                      exact absurd h1 (by simp)
                · rw [valAt_iface_some_non_unbox _ _ hst2] at h1
                  exact absurd h1 (by simp)
          | structV fs =>
            simp only [rewroteAt, hfe] at h2
            have := ih (.structV fs) false r s b h1 h2
            simpa [substMapVal] using this
          | sliceV xs =>
            simp only [rewroteAt, hfe] at h2
            have := ih (.sliceV xs) false r s b h1 h2
            simpa [substMapVal] using this
          | mapV es2 =>
            simp only [rewroteAt, hfe] at h2
            have := ih (.mapV es2) false r s b h1 h2
            simpa [substMapVal] using this
          | ptrV o =>
            simp only [rewroteAt, hfe] at h2
            have := ih (.ptrV o) false r s b h1 h2
            simpa [substMapVal] using this
          | intV a2 =>
            cases p' with
            | nil => simp [valAt] at h1
            | cons st2 p2 =>
              rw [valAt_atomic_cons (by simp [atomicVal])] at h1
              exact absurd h1 (by simp)
          | uintV a2 =>
            cases p' with
            | nil => simp [valAt] at h1
            | cons st2 p2 =>
              rw [valAt_atomic_cons (by simp [atomicVal])] at h1
              exact absurd h1 (by simp)
          | boolV a2 =>
            cases p' with
            | nil => simp [valAt] at h1
            | cons st2 p2 =>
              rw [valAt_atomic_cons (by simp [atomicVal])] at h1
              exact absurd h1 (by simp)
          | floatV a2 =>
            cases p' with
            | nil => simp [valAt] at h1
            | cons st2 p2 =>
              rw [valAt_atomic_cons (by simp [atomicVal])] at h1
              exact absurd h1 (by simp)

/-- Frame property of the interpolation walk, all mutual functions at
once: erasing every string leaf commutes with substitution, so the
walk modifies nothing but string leaves — in particular no numeric or
boolean value, no structure, and no map key. -/
theorem erase_subst (env : Env) :
    ∀ N : Nat,
      (∀ v : Val, sizeOf v < N → ∀ a r : Bool,
        eraseStrings (substituteValue env a r v) = eraseStrings v) ∧
      (∀ fs : List Field, sizeOf fs < N → ∀ a r : Bool,
        eraseFields (substFields env a r fs) = eraseFields fs) ∧
      (∀ xs : List Val, sizeOf xs < N → ∀ r : Bool,
        eraseElems (substElems env r xs) = eraseElems xs) ∧
      (∀ es : List (String × Val), sizeOf es < N → ∀ r : Bool,
        eraseEntries (substEntries env r es) = eraseEntries es) ∧
      (∀ v : Val, sizeOf v + 1 < N → ∀ r : Bool,
        eraseStrings (substMapVal env r v) = eraseStrings v) := by
  intro N
  induction N with
  | zero =>
    refine ⟨fun v h => absurd h (by omega), fun fs h => absurd h (by omega),
      fun xs h => absurd h (by omega), fun es h => absurd h (by omega),
      fun v h => absurd h (by omega)⟩
  | succ N ih =>
    obtain ⟨ihv, ihf, ihx, ihe, ihm⟩ := ih
    refine ⟨?_, ?_, ?_, ?_, ?_⟩
    · intro v hsz a r
      cases v with
      | str s => by_cases hc : (a && !r) = true <;> simp [substituteValue, eraseStrings, hc]
      | structV fs =>
        have h1 : sizeOf fs < N := by simp at hsz; omega
        simp [substituteValue, eraseStrings, ihf fs h1 a r]
      | sliceV xs =>
        have h1 : sizeOf xs < N := by simp at hsz; omega
        simp [substituteValue, eraseStrings, ihx xs h1 r]
      | mapV es =>
        have h1 : sizeOf es < N := by simp at hsz; omega
        simp [substituteValue, eraseStrings, ihe es h1 r]
      | ptrV o =>
        cases o with
        | none => simp [substituteValue, eraseStrings]
        | some w =>
          have h1 : sizeOf w < N := by simp at hsz; omega
          simp [substituteValue, eraseStrings, ihv w h1 true r]
      | ifaceV o =>
        cases o with
        | none => simp [substituteValue, eraseStrings]
        | some w =>
          have h1 : sizeOf w < N := by simp at hsz; omega
          simp [substituteValue, eraseStrings, ihv w h1 false r]
      | intV a2 => simp [substituteValue, eraseStrings]
      | uintV a2 => simp [substituteValue, eraseStrings]
      | boolV a2 => simp [substituteValue, eraseStrings]
      | floatV a2 => simp [substituteValue, eraseStrings]
    · intro fs hsz a r
      cases fs with
      | nil => simp [substFields, eraseFields]
      | cons f0 rest =>
        obtain ⟨n, t, cs, v⟩ := f0
        have h1 : sizeOf v < N := by simp at hsz; omega
        have h2 : sizeOf rest < N := by simp at hsz; omega
        simp [substFields, eraseFields, ihv v h1 a (r || !cs), ihf rest h2 a r]
    · intro xs hsz r
      cases xs with
      | nil => simp [substElems, eraseElems]
      | cons v rest =>
        have h1 : sizeOf v < N := by simp at hsz; omega
        have h2 : sizeOf rest < N := by simp at hsz; omega
        simp [substElems, eraseElems, ihv v h1 true r, ihx rest h2 r]
    · intro es hsz r
      cases es with
      | nil => simp [substEntries, eraseEntries]
      | cons e rest =>
        obtain ⟨k, v⟩ := e
        have h1 : sizeOf v + 1 < N := by simp at hsz; omega
        have h2 : sizeOf rest < N := by simp at hsz; omega
        simp [substEntries, eraseEntries, ihm v h1 r, ihe rest h2 r]
    · intro v hsz r
      cases v with
      | str s => by_cases hr : r = true <;> simp [substMapVal, eraseStrings, hr]
      | ifaceV o =>
        cases o with
        | none => simp [substMapVal, eraseStrings]
        | some w2 =>
          cases w2 with
          | str s2 => by_cases hr : r = true <;> simp [substMapVal, eraseStrings, hr]
          | structV fs =>
            have h1 : sizeOf (Val.structV fs) < N := by simp at hsz ⊢; omega
            simp [substMapVal, eraseStrings, ihv (Val.structV fs) h1 false r]
          | sliceV xs =>
            have h1 : sizeOf (Val.sliceV xs) < N := by simp at hsz ⊢; omega
            simp [substMapVal, eraseStrings, ihv (Val.sliceV xs) h1 false r]
          | mapV es2 =>
            have h1 : sizeOf (Val.mapV es2) < N := by simp at hsz ⊢; omega
            simp [substMapVal, eraseStrings, ihv (Val.mapV es2) h1 false r]
          | ptrV o2 =>
            have h1 : sizeOf (Val.ptrV o2) < N := by simp at hsz ⊢; omega
            simp [substMapVal, eraseStrings, ihv (Val.ptrV o2) h1 false r]
          | ifaceV o2 =>
            have h1 : sizeOf (Val.ifaceV o2) < N := by simp at hsz ⊢; omega
            simp [substMapVal, eraseStrings, ihv (Val.ifaceV o2) h1 false r]
          | intV a2 =>
            have h1 : sizeOf (Val.intV a2) < N := by simp at hsz ⊢; omega
            simp [substMapVal, eraseStrings, ihv (Val.intV a2) h1 false r]
          | uintV a2 =>
            have h1 : sizeOf (Val.uintV a2) < N := by simp at hsz ⊢; omega
            simp [substMapVal, eraseStrings, ihv (Val.uintV a2) h1 false r]
          | boolV a2 =>
            have h1 : sizeOf (Val.boolV a2) < N := by simp at hsz ⊢; omega
            simp [substMapVal, eraseStrings, ihv (Val.boolV a2) h1 false r]
          | floatV a2 =>
            have h1 : sizeOf (Val.floatV a2) < N := by simp at hsz ⊢; omega
            simp [substMapVal, eraseStrings, ihv (Val.floatV a2) h1 false r]
      | structV fs =>
        have h1 : sizeOf (Val.structV fs) < N := by simp at hsz ⊢; omega
        simp only [substMapVal]
        exact ihv (Val.structV fs) h1 false r
      | sliceV xs =>
        have h1 : sizeOf (Val.sliceV xs) < N := by simp at hsz ⊢; omega
        simp only [substMapVal]
        exact ihv (Val.sliceV xs) h1 false r
      | mapV es2 =>
        have h1 : sizeOf (Val.mapV es2) < N := by simp at hsz ⊢; omega
        simp only [substMapVal]
        exact ihv (Val.mapV es2) h1 false r
      | ptrV o =>
        have h1 : sizeOf (Val.ptrV o) < N := by simp at hsz ⊢; omega
        simp only [substMapVal]
        exact ihv (Val.ptrV o) h1 false r
      | intV a2 => simp [substMapVal, substituteValue]
      | uintV a2 => simp [substMapVal, substituteValue]
      | boolV a2 => simp [substMapVal, substituteValue]
      | floatV a2 => simp [substMapVal, substituteValue]

theorem spanP_all_stop (q : Char → Bool) :
    ∀ (a t : List Char), (∀ x ∈ a, q x = true) →
      (t = [] ∨ ∃ c1 t2, t = c1 :: t2 ∧ q c1 = false) →
      spanP q (a ++ t) = (a, t) := by
  intro a
  induction a with
  | nil =>
    intro t _ ht
    rcases ht with rfl | ⟨c1, t2, rfl, hc⟩
    · simp [spanP]
    · simp [spanP, hc]
  | cons c a2 ih =>
    intro t ha ht
    have hc : q c = true := ha c (by simp)
    have := ih t (fun x hx => ha x (by simp [hx])) ht
    simp [spanP, hc, this]

theorem takeBraced_eval {content t : List Char} (hne : content ≠ [])
    (hnb : brC ∉ content) :
    takeBraced (content ++ brC :: t) = some (content, t) := by
  have hs : spanP (fun c => !(c = brC)) (content ++ brC :: t) = (content, brC :: t) := by
    refine spanP_all_stop _ content (brC :: t) ?_ (Or.inr ⟨brC, t, rfl, by simp⟩)
    intro x hx
    simp
    intro hxe
    exact hnb (hxe ▸ hx)
  unfold takeBraced
  rw [hs]
  simp [hne]

theorem scanAux_braced (env : Env) (content t : List Char) (hne : content ≠ [])
    (hnb : brC ∉ content) :
    scanAux env ('$' :: brO :: (content ++ brC :: t)) =
      resolveBraced env content ++ scanAux env t := by
  rw [scanAux]
  rw [if_pos (show ('$' : Char) = '$' from rfl), if_pos (show brO = brO from rfl)]
  split
  next cr heq =>
    rw [takeBraced_eval hne hnb] at heq
    injection heq with heq2
    rw [← heq2]
  next heq =>
    rw [takeBraced_eval hne hnb] at heq
    exact absurd heq (by simp)

theorem scanAux_bare (env : Env) (c0 : Char) (nm t : List Char)
    (h0 : nameStartChar c0 = true) (hnm : ∀ x ∈ nm, nameChar x = true)
    (ht : ∀ c1 ∈ t.head?, nameChar c1 = false) :
    scanAux env ('$' :: c0 :: (nm ++ t)) = resolveBare env (c0 :: nm) ++ scanAux env t := by
  have hc0 : ¬c0 = brO := by
    intro he
    subst he
    exact absurd h0 (by decide)
  have hsp : spanP nameChar (c0 :: (nm ++ t)) = (c0 :: nm, t) := by
    have hrest : spanP nameChar (nm ++ t) = (nm, t) := by
      refine spanP_all_stop _ nm t hnm ?_
      cases t with
      | nil => exact Or.inl rfl
      | cons c1 t2 => exact Or.inr ⟨c1, t2, rfl, ht c1 (by simp)⟩
    simp [spanP, nameChar, h0, hrest]
  rw [scanAux]
  simp [hc0, h0, hsp]

theorem scanAux_no_dollar (env : Env) :
    ∀ (cs : List Char), '$' ∉ cs → scanAux env cs = cs := by
  intro cs
  induction cs with
  | nil => intro _; rw [scanAux]
  | cons c cs2 ih =>
    intro h
    have hc : ¬c = '$' := by
      intro he
      exact h (by simp [he])
    rw [scanAux.eq_def]
    simp [hc]
    exact ih (fun hm => h (by simp [hm]))

theorem setFieldValue_unsupported {v : Val} (h : isUnsupportedKind v = true)
    (x : String) : setFieldValue v x = .error (.unsupportedType (kindName v)) := by
  cases v <;> first
    | (simp [setFieldValue]; done)
    | simp [isUnsupportedKind] at h

theorem isLeafKind_of_unsupported {v : Val} (h : isUnsupportedKind v = true) :
    isLeafKind v = true := by
  cases v <;> simp_all [isUnsupportedKind, isLeafKind]

theorem loadFields_dash_fieldAt {env : Env} :
    ∀ (p : List Nat) {pfx : String} {fs fs2 : List Field} {f : Field},
      loadFields env pfx fs = .ok fs2 → fieldAt fs p = some f → envKeyOf f = "-" →
      fieldAt fs2 p = some f := by
  intro p
  induction p with
  | nil =>
    intro pfx fs fs2 f _ hat _
    simp [fieldAt] at hat
  | cons i p' ih =>
    intro pfx fs fs2 f h hat hk
    simp only [fieldAt] at hat
    cases hfi : fs[i]? with
    | none => rw [hfi] at hat; simp at hat
    | some f0 =>
      simp only [hfi] at hat
      obtain ⟨hlen, hidx⟩ := loadFields_ok_index h
      obtain ⟨f2, hf2, hn, ht, hcs2, hrest⟩ := hidx i f0 hfi
      cases p' with
      | nil =>
        simp at hat
        subst hat
        by_cases hcs : f0.settable = true
        · rw [if_pos hcs] at hrest
          rw [if_pos hk] at hrest
          subst hrest
          simp [fieldAt, hf2]
        · rw [if_neg hcs] at hrest
          subst hrest
          simp [fieldAt, hf2]
      | cons j p2 =>
        cases hval0 : f0.fval with
        | structV inner =>
          simp only [hval0] at hat
          by_cases hcs : f0.settable = true
          · rw [if_pos hcs] at hrest
            by_cases hk0 : envKeyOf f0 = "-"
            · rw [if_pos hk0] at hrest
              subst hrest
              simp only [fieldAt, hf2, hval0]
              exact hat
            · rw [if_neg hk0] at hrest
              rw [hval0] at hrest
              obtain ⟨inner2, hin, hf2v⟩ := hrest
              simp only [fieldAt, hf2, hf2v]
              exact ih hin hat hk
          · rw [if_neg hcs] at hrest
            subst hrest
            simp only [fieldAt, hf2, hval0]
            exact hat
        | str a => simp [hval0] at hat
        | intV a => simp [hval0] at hat
        | uintV a => simp [hval0] at hat
        | boolV a => simp [hval0] at hat
        | floatV a => simp [hval0] at hat
        | sliceV a => simp [hval0] at hat
        | mapV a => simp [hval0] at hat
        | ptrV a => simp [hval0] at hat
        | ifaceV a => simp [hval0] at hat

/-- C6: the file phase succeeds as a no-op whenever the supplied path
is empty (the phase is skipped, and the file system is never
consulted) or names a file that does not exist; a missing config file
is never an error. -/
theorem c6_missing_file_noop :
    (∀ (fsys fsys2 : FSys) (env : Env) (pfx : String) (c : Val) (hd : Bool)
      (sd : Val → Val), Load fsys env "" pfx c hd sd = Load fsys2 env "" pfx c hd sd) ∧
    (∀ (fsys : FSys) (path : String) (c : Val), fsys path = .notExist →
      loadFromFile fsys path c = .ok c) ∧
    (∀ (fsys : FSys) (env : Env) (path pfx : String) (c : Val) (hd : Bool)
      (sd : Val → Val), fsys path = .notExist →
      Load fsys env path pfx c hd sd = Load fsys env "" pfx c hd sd) := by
  refine ⟨fun fsys fsys2 env pfx c hd sd => by simp [Load],
    fun fsys path c h => by simp [loadFromFile, h],
    fun fsys env path pfx c hd sd h => ?_⟩
  by_cases hp : path = ""
  · rw [hp]
  · simp [Load, hp, loadFromFile, h]

theorem c6_witness :
    loadFromFile (fun _ => .notExist) "config.yaml" (.structV []) = .ok (.structV []) :=
  c6_missing_file_noop.2.1 (fun _ => .notExist) "config.yaml" (.structV []) rfl

/-- C7 counterexample: a non-empty path with an unsupported extension
does not produce an `UnsupportedFormatError` when the file does not
exist — the phase succeeds as a no-op, because the extension is only
examined after a successful read. -/
theorem c7_counterexample :
    loadFromFile (fun _ => .notExist) "config.toml" (.structV []) = .ok (.structV []) ∧
    (Except.ok (Val.structV []) : Except LoadError Val) ≠
      .error (.unsupportedFormat ".toml") := by
  exact ⟨by simp [loadFromFile], by simp⟩

/-- C7 (amended): for every path that names an existing, readable
file whose lower-cased extension is outside the two supported
families, the file phase fails with an `UnsupportedFormatError`
naming the rejected extension. -/
theorem c7_unsupported_format (fsys : FSys) (path : String) (c : Val) (fd : FileData)
    (hread : fsys path = .content fd)
    (h1 : ¬asciiLower (filepathExt path) = ".yaml")
    (h2 : ¬asciiLower (filepathExt path) = ".yml")
    (h3 : ¬asciiLower (filepathExt path) = ".json") :
    loadFromFile fsys path c = .error (.unsupportedFormat (asciiLower (filepathExt path))) := by
  simp [loadFromFile, hread, h1, h2, h3]

theorem c7_witness :
    loadFromFile (fun _ => .content ⟨fun _ => none, fun _ => none⟩) "config.toml"
      (.structV []) = .error (.unsupportedFormat ".toml") := by
  have h := c7_unsupported_format (fun _ => .content ⟨fun _ => none, fun _ => none⟩)
    "config.toml" (.structV []) ⟨fun _ => none, fun _ => none⟩ rfl
    (by decide) (by decide) (by decide)
  rw [show asciiLower (filepathExt "config.toml") = ".toml" from by decide] at h
  exact h

/-- C8: a field whose override key is the sentinel `-` is never read
from the environment and never modified by the overlay phase: at any
nesting depth a successful overlay returns it (and its whole subtree)
unchanged, and at the head of a record the loader's result is exactly
the result on the remaining fields with the sentinel field passed
through — an equation in which the environment is never applied to a
key of that field, for any environment contents. -/
theorem c8_sentinel_never_touched :
    (∀ (env : Env) (pfx : String) (fs fs2 : List Field) (p : List Nat) (f : Field),
      loadFields env pfx fs = .ok fs2 → fieldAt fs p = some f → envKeyOf f = "-" →
      fieldAt fs2 p = some f) ∧
    (∀ (env : Env) (pfx n : String) (cs : Bool) (v : Val) (rest : List Field),
      loadFields env pfx (.mk n "-" cs v :: rest) =
        match loadFields env pfx rest with
        | .error e => .error e
        | .ok rest2 => .ok (.mk n "-" cs v :: rest2)) := by
  refine ⟨fun env pfx fs fs2 p f h hat hk => loadFields_dash_fieldAt p h hat hk,
    fun env pfx n cs v rest => ?_⟩
  by_cases hcs : cs = true
  · exact loadFields_dash hcs (by simp)
  · exact loadFields_skip (by cases cs <;> simp_all)

theorem c8_witness :
    fieldAt [Field.mk "Secret" "-" true (Val.str "s")] [0] =
        some (Field.mk "Secret" "-" true (Val.str "s")) ∧
    loadFields (fun _ => "boom") "" [Field.mk "Secret" "-" true (Val.str "s")] =
      .ok [Field.mk "Secret" "-" true (Val.str "s")] := by
  constructor
  · exact c8_sentinel_never_touched.1 (fun _ => "boom") ""
      [Field.mk "Secret" "-" true (Val.str "s")]
      [Field.mk "Secret" "-" true (Val.str "s")] [0]
      (Field.mk "Secret" "-" true (Val.str "s"))
      (by rw [c8_sentinel_never_touched.2, loadFields_nil])
      (by simp [fieldAt]) (by simp [envKeyOf, Field.ftag])
  · rw [c8_sentinel_never_touched.2, loadFields_nil]

/-- C9: the phases run in order: a file-phase error (for a non-empty
path) short-circuits the load with that error, an environment-overlay
error short-circuits with that error, and when both succeed the load
always succeeds with the interpolated result, to which the
`SetDefaults` hook is applied exactly once when the target implements
it and never otherwise — so neither interpolation nor the hook can
fail the load. -/
theorem c9_phase_sequencing (fsys : FSys) (env : Env) (path pfx : String) (c : Val)
    (hd : Bool) (sd : Val → Val) :
    (∀ e, (if path = "" then Except.ok c else loadFromFile fsys path c) = .error e →
      Load fsys env path pfx c hd sd = .error e) ∧
    (∀ c1 e, (if path = "" then Except.ok c else loadFromFile fsys path c) = .ok c1 →
      loadFromEnv env pfx c1 = .error e → Load fsys env path pfx c hd sd = .error e) ∧
    (∀ c1 c2, (if path = "" then Except.ok c else loadFromFile fsys path c) = .ok c1 →
      loadFromEnv env pfx c1 = .ok c2 →
      Load fsys env path pfx c hd sd =
        .ok (if hd then sd (substituteEnvVars env c2) else substituteEnvVars env c2)) := by
  refine ⟨fun e h1 => ?_, fun c1 e h1 h2 => ?_, fun c1 c2 h1 h2 => ?_⟩
  · simp only [Load, h1]
  · simp only [Load, h1, h2]
  · simp only [Load, h1, h2]

theorem c9_witness :
    Load (fun _ => .notExist) (fun _ => "") "" "" (.structV []) true (fun v => v) =
      .ok (.structV []) := by
  have h := (c9_phase_sequencing (fun _ => .notExist) (fun _ => "") "" "" (.structV [])
      true (fun v => v)).2.2 (.structV []) (.structV []) (by simp)
      (by simp [loadFromEnv, loadFields])
  simpa [substituteEnvVars, substituteValue, substFields] using h

/-- C1 counterexample: with no file, prefix `""`, a string field
`Name` and the environment `NAME="$Y"`, `Y="z"`, a successful `Load`
leaves the field equal to `"z"` — the interpolation phase rewrote the
value after the overlay — while the claim demands the environment
value coerced to the field's kind, which for a string field is the
verbatim `"$Y"`. -/
theorem c1_counterexample :
    Load (fun _ => .notExist)
        (fun k => if k = "NAME" then "$Y" else if k = "Y" then "z" else "")
        "" "" (.structV [.mk "Name" "" true (.str "")]) false (fun v => v) =
      .ok (.structV [.mk "Name" "" true (.str "z")]) ∧
    setFieldValue (Val.str "") "$Y" = .ok (.str "$Y") ∧
    Val.str "z" ≠ Val.str "$Y" := by
  refine ⟨?_, by simp [setFieldValue], by simp⟩
  simp +decide [Load, loadFromEnv, loadFields, setFieldValue, substituteEnvVars,
    substituteValue, substFields, expandEnvVar, scanAux, spanP, resolveBare,
    nameChar, nameStartChar, asciiUpper, brO]

/-- C1 (amended): after the environment-overlay phase of a load
succeeds, every settable leaf field visited by the walk whose derived
environment key holds a non-empty value equals that value coerced to
the field's scalar kind, regardless of the phase-1 value; an unset or
empty value leaves the phase-1 value untouched.  (The final loaded
value can differ: phase 3 expands `$`-references inside string fields
and the defaults hook may rewrite fields, as the counterexample
shows.) -/
theorem c1_env_overlay_value (env : Env) (pfx : String) (fs fs2 : List Field)
    (p : List Nat) (f : Field) (key : String)
    (h : loadFields env pfx fs = .ok fs2)
    (hv : visit pfx fs p = some (f, key))
    (hl : isLeafKind f.fval = true) :
    (¬env key = "" → ∃ v2, setFieldValue f.fval (env key) = .ok v2 ∧
      fieldAt fs2 p = some (.mk f.fname f.ftag f.settable v2)) ∧
    (env key = "" → fieldAt fs2 p = some f) :=
  ⟨fun hne => (loadFields_visit_ok p h hv hl).2 hne,
   fun he => (loadFields_visit_ok p h hv hl).1 he⟩

theorem c1_witness :
    ∃ v2, setFieldValue (Val.intV 0) "42" = .ok v2 ∧
      fieldAt [Field.mk "Port" "" true (Val.intV 42)] [0] =
        some (Field.mk "Port" "" true v2) := by
  have h := (c1_env_overlay_value (fun k => if k = "PORT" then "42" else "") ""
      [.mk "Port" "" true (.intV 0)] [.mk "Port" "" true (.intV 42)] [0]
      (.mk "Port" "" true (.intV 0)) "PORT"
      (by simp +decide [loadFields, setFieldValue, parseIntGo, digitsValAux, asciiUpper])
      (by simp +decide [visit, envKeyOf, Field.settable, Field.ftag, Field.fname, asciiUpper])
      (by simp [isLeafKind, Field.fval])).1 (by simp +decide)
  simpa [Field.fname, Field.ftag, Field.settable, Field.fval] using h

/-- C2: derived environment keys are the accumulated prefix followed
by the override key, nested records extend the prefix with their full
key plus an underscore, the overlay phase reads the environment only
at those derived keys (environments agreeing there are
indistinguishable), every derived key factors as the prefix followed
by a prefix-independent suffix, and the concrete instance holds: a
`Timeout` field inside a `Server` record under prefix `APP_` is read
from `APP_SERVER_TIMEOUT`. -/
theorem c2_env_key_derivation :
    (∀ (env1 env2 : Env) (pfx : String) (fs : List Field),
      (∀ k, k ∈ envKeys pfx fs → env1 k = env2 k) →
      loadFields env1 pfx fs = loadFields env2 pfx fs) ∧
    (∀ (pfx : String) (fs : List Field),
      envKeys pfx fs = (envKeys "" fs).map (fun k => pfx ++ k)) ∧
    envKeys "APP_" [.mk "Server" "" true (.structV [.mk "Timeout" "" true (.intV 0)])] =
      ["APP_SERVER_TIMEOUT"] ∧
    (∀ env : Env, env "APP_SERVER_TIMEOUT" = "42" →
      loadFields env "APP_"
          [.mk "Server" "" true (.structV [.mk "Timeout" "" true (.intV 0)])] =
        .ok [.mk "Server" "" true (.structV [.mk "Timeout" "" true (.intV 42)])]) := by
  refine ⟨fun env1 env2 pfx fs hag =>
      loadFields_locality (sizeOf fs + 1) fs (by omega) pfx hag,
    fun pfx fs => envKeys_prefix_factor (sizeOf fs + 1) fs (by omega) pfx, ?_, ?_⟩
  · have h1 : asciiUpper "Server" = "SERVER" := by decide
    have h2 : asciiUpper "Timeout" = "TIMEOUT" := by decide
    simp +decide [envKeys, h1, h2]
  · intro env he
    have h1 : asciiUpper "Server" = "SERVER" := by decide
    have h2 : asciiUpper "Timeout" = "TIMEOUT" := by decide
    have h3 : ("APP_" ++ "SERVER" ++ "_") ++ "TIMEOUT" = "APP_SERVER_TIMEOUT" := by decide
    simp +decide [loadFields, setFieldValue, parseIntGo, digitsValAux, h1, h2, h3, he]

theorem c2_witness :
    loadFields (fun k => if k = "APP_SERVER_TIMEOUT" then "42" else "") "APP_"
        [.mk "Server" "" true (.structV [.mk "Timeout" "" true (.intV 0)])] =
      .ok [.mk "Server" "" true (.structV [.mk "Timeout" "" true (.intV 42)])] :=
  c2_env_key_derivation.2.2.2 (fun k => if k = "APP_SERVER_TIMEOUT" then "42" else "")
    (by simp)

/-- C5: if the file phase hands the overlay a record in which some
visited leaf field's non-empty environment value fails to coerce to
the field's scalar kind, the whole `Load` fails, and the error is a
`FieldBindError` witnessed by a genuinely failing field: it names
that field and its derived key and carries the coercion failure —
which for a scalar kind is the `strconv` error holding the offending
raw value.  The overlay is all-or-nothing: no `Load` success is
possible while any such leaf exists. -/
theorem c5_field_bind_error (fsys : FSys) (env : Env) (path pfx : String) (c : Val)
    (hd : Bool) (sd : Val → Val) (fs1 : List Field)
    (hfile : (if path = "" then Except.ok c else loadFromFile fsys path c) =
      .ok (.structV fs1))
    (p : List Nat) (f : Field) (key : String) (cause : SetErr)
    (hv : visit pfx fs1 p = some (f, key)) (hl : isLeafKind f.fval = true)
    (hne : ¬env key = "") (hbad : setFieldValue f.fval (env key) = .error cause) :
    ∃ e, Load fsys env path pfx c hd sd = .error e ∧ errWitness env pfx fs1 e := by
  obtain ⟨e0, he0⟩ := loadFields_fails_of_bad_leaf hv hl hne hbad
  refine ⟨e0, ?_, loadFields_error_shape (sizeOf fs1 + 1) fs1 (by omega) pfx e0 he0⟩
  rw [Load, hfile]
  simp [loadFromEnv, he0]

theorem c5_witness :
    ∃ e, Load (fun _ => .notExist) (fun k => if k = "PORT" then "abc" else "") "" ""
        (.structV [.mk "Port" "" true (.intV 0)]) false (fun v => v) = .error e ∧
      errWitness (fun k => if k = "PORT" then "abc" else "") ""
        [Field.mk "Port" "" true (Val.intV 0)] e := by
  exact c5_field_bind_error (fun _ => .notExist)
    (fun k => if k = "PORT" then "abc" else "") "" ""
    (.structV [.mk "Port" "" true (.intV 0)]) false (fun v => v)
    [.mk "Port" "" true (.intV 0)] (by simp) [0]
    (.mk "Port" "" true (.intV 0)) "PORT" (.numError "ParseInt" "abc" .errSyntax)
    (by simp +decide [visit, envKeyOf, Field.settable, Field.ftag, Field.fname, asciiUpper])
    (by simp [isLeafKind, Field.fval])
    (by simp +decide)
    (by simp +decide [setFieldValue, parseIntGo, digitsValAux, Field.fval])

/-- C10: a settable field that is neither a record nor a supported
scalar kind (sequence, mapping, pointer or interface typed) fails the
overlay — and with it the whole load — when its derived key holds a
non-empty value, with a `FieldBindError` whose cause for that field
is the unsupported-field-type error; when the key is unset or empty
the field is silently skipped and the walk continues over the
remaining fields. -/
theorem c10_unsupported_kind (env : Env) (pfx : String) :
    (∀ (fs : List Field) (p : List Nat) (f : Field) (key : String),
      visit pfx fs p = some (f, key) → isUnsupportedKind f.fval = true →
      ¬env key = "" →
      ∃ e, loadFromEnv env pfx (.structV fs) = .error e ∧ errWitness env pfx fs e) ∧
    (∀ (n t : String) (v : Val) (rest : List Field),
      isUnsupportedKind v = true →
      ¬(if t = "" then asciiUpper n else t) = "-" →
      env (pfx ++ (if t = "" then asciiUpper n else t)) = "" →
      loadFields env pfx (.mk n t true v :: rest) =
        match loadFields env pfx rest with
        | .error e => .error e
        | .ok rest2 => .ok (.mk n t true v :: rest2)) := by
  constructor
  · intro fs p f key hv hu hne
    obtain ⟨e0, he0⟩ := loadFields_fails_of_bad_leaf hv (isLeafKind_of_unsupported hu)
      hne (setFieldValue_unsupported hu (env key))
    exact ⟨e0, by simp [loadFromEnv, he0],
      loadFields_error_shape (sizeOf fs + 1) fs (by omega) pfx e0 he0⟩
  · intro n t v rest hu hk he
    exact loadFields_leaf_empty rfl hk (isLeafKind_of_unsupported hu) he

theorem c10_witness :
    ∃ e, loadFromEnv (fun k => if k = "TAGS" then "a,b" else "") ""
        (.structV [.mk "Tags" "" true (.sliceV [])]) = .error e ∧
      errWitness (fun k => if k = "TAGS" then "a,b" else "") ""
        [Field.mk "Tags" "" true (Val.sliceV [])] e := by
  exact (c10_unsupported_kind (fun k => if k = "TAGS" then "a,b" else "") "").1
    [.mk "Tags" "" true (.sliceV [])] [0] (.mk "Tags" "" true (.sliceV [])) "TAGS"
    (by simp +decide [visit, envKeyOf, Field.settable, Field.ftag, Field.fname, asciiUpper])
    (by simp [isUnsupportedKind, Field.fval])
    (by simp +decide)

/-- C3 counterexample: a string held directly in an interface-typed
(open) slot of a record is NOT rewritten by the interpolation phase —
`reflect.Value.Elem` on an interface is not addressable, so `CanSet`
fails at the string — although its variable-expanded form differs. -/
theorem c3_counterexample :
    substituteEnvVars (fun k => if k = "X" then "hello" else "")
        (.structV [.mk "A" "" true (.ifaceV (some (.str "$X")))]) =
      .structV [.mk "A" "" true (.ifaceV (some (.str "$X")))] ∧
    expandEnvVar (fun k => if k = "X" then "hello" else "") "$X" = "hello" ∧
    ("hello" : String) ≠ "$X" := by
  refine ⟨?_, ?_, by decide⟩
  · simp [substituteEnvVars, substituteValue, substFields]
  · simp +decide [expandEnvVar, scanAux, spanP, resolveBare, nameChar, nameStartChar, brO]

/-- C3 (amended): the interpolation phase rewrites exactly the string
leaves that reflect lets it write: a string leaf at any path is
replaced by its variable-expanded form precisely when `rewroteAt`
holds of the path (settable struct fields, sequence elements, pointer
targets, and map values that are strings or interface-wrapped
strings), and is left verbatim otherwise (in particular strings held
directly in interface slots outside maps, and strings inside
struct-valued map entries); `rewroteAt` is defined on every string
leaf; and erasing all strings commutes with the walk, so no
non-string value and no mapping key is modified. -/
theorem c3_interpolation_walk :
    (∀ (env : Env) (p : List Step) (v : Val) (s : String) (b : Bool),
      valAt v p = some (.str s) → rewroteAt true false v p = some b →
      valAt (substituteEnvVars env v) p =
        some (.str (if b then expandEnvVar env s else s))) ∧
    (∀ (p : List Step) (v : Val) (s : String),
      valAt v p = some (.str s) → ∃ b, rewroteAt true false v p = some b) ∧
    (∀ (env : Env) (v : Val), eraseStrings (substituteEnvVars env v) = eraseStrings v) := by
  refine ⟨fun env p v s b h1 h2 => ?_,
    fun p v s h1 => rewroteAt_total p v true false s h1, fun env v => ?_⟩
  · have h := @valAt_subst env p v true false s b h1 h2
    simpa [substituteEnvVars] using h
  · have h := (erase_subst env (sizeOf v + 1)).1 v (by omega) true false
    simpa [substituteEnvVars] using h

theorem c3_witness :
    valAt (substituteEnvVars (fun k => if k = "X" then "hello" else "")
        (.structV [.mk "A" "" true (.ifaceV (some (.str "$X")))]))
      [.fieldIdx 0, .unbox] = some (.str "$X") := by
  have h := c3_interpolation_walk.1 (fun k => if k = "X" then "hello" else "")
    [.fieldIdx 0, .unbox] (.structV [.mk "A" "" true (.ifaceV (some (.str "$X")))])
    "$X" false
    (by simp [valAt, Field.fval])
    (by simp [rewroteAt, Field.settable, Field.fval])
  simpa using h

/-- C4 counterexample: `${X:-}` with `X` unset carries a default
clause whose DEFAULT is empty, and the claim demands the empty
DEFAULT verbatim, yet the expansion keeps the original matched text
unchanged (the source tests `defaultValue != ""`, which cannot
distinguish an empty default from no default). -/
theorem c4_counterexample :
    expandEnvVar (fun _ => "") (String.mk ['$', brO, 'X', ':', '-', brC]) =
      String.mk ['$', brO, 'X', ':', '-', brC] ∧
    splitDefault ['X', ':', '-'] = (['X'], []) ∧
    ¬String.mk ['$', brO, 'X', ':', '-', brC] = "" := by
  refine ⟨?_, by simp +decide [splitDefault], by decide⟩
  show String.mk (scanAux (fun _ => "") ['$', brO, 'X', ':', '-', brC]) =
    String.mk ['$', brO, 'X', ':', '-', brC]
  rw [show scanAux (fun _ => "") ['$', brO, 'X', ':', '-', brC] =
      resolveBraced (fun _ => "") ['X', ':', '-'] ++ scanAux (fun _ => "") [] from
    scanAux_braced (fun _ => "") ['X', ':', '-'] [] (by simp) (by decide)]
  simp +decide [resolveBraced, splitDefault, scanAux]

/-- C4 (amended): the expansion consumes each leftmost match and
continues after it: a braced reference is resolved through
`resolveBraced` (environment value when non-empty; otherwise the
DEFAULT of a `:-` clause when that default is non-empty; otherwise
the original matched text — so an empty DEFAULT behaves like no
default clause), a bare `$NAME` reference through `resolveBare`
(environment value when non-empty, otherwise the original text), a
string without `$` is returned unchanged, and the phase is total —
it cannot produce an error. -/
theorem c4_expansion_resolution :
    (∀ (env : Env) (content t : List Char), content ≠ [] → brC ∉ content →
      expandEnvVar env (String.mk ('$' :: brO :: (content ++ brC :: t))) =
        String.mk (resolveBraced env content ++ scanAux env t)) ∧
    (∀ (env : Env) (c0 : Char) (nm t : List Char), nameStartChar c0 = true →
      (∀ x ∈ nm, nameChar x = true) → (∀ c1 ∈ t.head?, nameChar c1 = false) →
      expandEnvVar env (String.mk ('$' :: c0 :: (nm ++ t))) =
        String.mk (resolveBare env (c0 :: nm) ++ scanAux env t)) ∧
    (∀ (env : Env) (content nm dflt : List Char), splitDefault content = (nm, dflt) →
      resolveBraced env content =
        (if env (String.mk nm) ≠ "" then (env (String.mk nm)).data
         else if dflt ≠ [] then dflt
         else '$' :: brO :: (content ++ [brC]))) ∧
    (∀ (env : Env) (nm : List Char),
      resolveBare env nm =
        (if env (String.mk nm) ≠ "" then (env (String.mk nm)).data else '$' :: nm)) ∧
    (∀ (env : Env) (s : String), '$' ∉ s.data → expandEnvVar env s = s) := by
  refine ⟨fun env content t hne hnb =>
      congrArg String.mk (scanAux_braced env content t hne hnb),
    fun env c0 nm t h0 hnm ht =>
      congrArg String.mk (scanAux_bare env c0 nm t h0 hnm ht),
    fun env content nm dflt h => by simp [resolveBraced, h],
    fun env nm => by simp [resolveBare], fun env s h => ?_⟩
  show String.mk (scanAux env s.data) = s
  rw [scanAux_no_dollar env s.data h]

theorem c4_witness :
    expandEnvVar (fun _ => "") (String.mk ['$', brO, 'X', ':', '-', 'y', brC]) =
      String.mk ['y'] := by
  have h : expandEnvVar (fun _ => "") (String.mk ['$', brO, 'X', ':', '-', 'y', brC]) =
      String.mk (resolveBraced (fun _ => "") ['X', ':', '-', 'y'] ++
        scanAux (fun _ => "") []) :=
    c4_expansion_resolution.1 (fun _ => "") ['X', ':', '-', 'y'] [] (by simp) (by decide)
  rw [h]
  simp +decide [resolveBraced, splitDefault, scanAux]

end Cfg
